import Mathlib

/-
Verification development for the layered persistent state store
(path-based trie database, state history codec, snapshot generator,
layer journal and offline pruner of a go-ethereum fork).

The Go sources are shallowly embedded: byte strings become `List Nat`
(each element a byte value < 256, enforced by hypotheses where it
matters), Go maps become association lists, fallible functions return
`Except`, and `uint8`/`uint32`/`uint64` arithmetic is `Nat` arithmetic
with explicit `% 2^w` at the points where Go truncates or wraps.
-/

set_option maxRecDepth 10000

namespace GethState

/-- Byte strings (for example trie paths, hashes, data streams) are lists
of byte values. -/
abbrev Bytes := List Nat

/-- Values of `uint8` arithmetic wrap at 2^8. -/
def U8 : Nat := 256

/-- Values of `uint32` arithmetic wrap at 2^32. -/
def U32 : Nat := 4294967296

/-- Values of `uint64` arithmetic wrap at 2^64. -/
def U64 : Nat := 18446744073709551616

/-- Every element of the list is a byte value. -/
def IsByteStream (bs : Bytes) : Prop := ∀ b ∈ bs, b < 256

instance : DecidablePred IsByteStream := fun bs =>
  inferInstanceAs (Decidable (∀ b ∈ bs, b < 256))

/-- Embedding of Go `bytes.Compare`: unsigned lexicographic comparison of
two byte strings, a shorter proper initial segment comparing less. -/
def bcmp : Bytes → Bytes → Ordering
  | [], [] => .eq
  | [], _ :: _ => .lt
  | _ :: _, [] => .gt
  | a :: as, b :: bs =>
    if a < b then .lt else if b < a then .gt else bcmp as bs

theorem bcmp_self (a : Bytes) : bcmp a a = .eq := by
  induction a with
  | nil => rfl
  | cons x xs ih => simp [bcmp, ih]

theorem bcmp_eq_iff {a b : Bytes} : bcmp a b = .eq ↔ a = b := by
  induction a generalizing b with
  | nil => cases b <;> simp [bcmp]
  | cons x xs ih =>
    cases b with
    | nil => simp [bcmp]
    | cons y ys =>
      by_cases hxy : x < y
      · simp [bcmp, hxy]
        omega
      · by_cases hyx : y < x
        · simp [bcmp, hxy, hyx]
          omega
        · have : x = y := by omega
          subst this
          simp [bcmp, ih]

/-- Appending suffixes on both sides of a common segment compares the
suffixes. -/
theorem bcmp_append_left (a s t : Bytes) :
    bcmp (a ++ s) (a ++ t) = bcmp s t := by
  induction a with
  | nil => rfl
  | cons x xs ih => simp [bcmp, ih]

/-- A byte string never compares greater than an extension of itself. -/
theorem bcmp_self_append (a s : Bytes) : bcmp a (a ++ s) ≠ .gt := by
  induction a with
  | nil => cases s <;> simp [bcmp]
  | cons x xs ih => simpa [bcmp] using ih

/-- For equal-length byte strings, a strict comparison is decided within
the common length and is preserved by appending arbitrary suffixes. -/
theorem bcmp_append_of_lt {a b : Bytes} (hlen : a.length = b.length)
    (h : bcmp a b = .lt) (s t : Bytes) : bcmp (a ++ s) (b ++ t) = .lt := by
  induction a generalizing b with
  | nil =>
    cases b with
    | nil => simp [bcmp] at h
    | cons y ys => simp at hlen
  | cons x xs ih =>
    cases b with
    | nil => simp at hlen
    | cons y ys =>
      by_cases hxy : x < y
      · simp [bcmp, hxy]
      · by_cases hyx : y < x
        · simp [bcmp, hxy, hyx] at h
        · have hx : x = y := by omega
          subst hx
          have h2 : bcmp xs ys = .lt := by simpa [bcmp, hxy, hyx] using h
          have := ih (b := ys) (by simpa using hlen) h2
          simpa [bcmp] using this

theorem bcmp_trans_le {a b c : Bytes} (hab : bcmp a b ≠ .gt)
    (hbc : bcmp b c ≠ .gt) : bcmp a c ≠ .gt := by
  induction a generalizing b c with
  | nil => cases c <;> simp [bcmp]
  | cons x xs ih =>
    cases b with
    | nil => simp [bcmp] at hab
    | cons y ys =>
      cases c with
      | nil => simp [bcmp] at hbc
      | cons z zs =>
        simp only [bcmp] at hab hbc ⊢
        by_cases hxy : x < y <;> by_cases hyz : y < z
        · have : x < z := by omega
          simp [this]
        · by_cases hzy : z < y
          · simp [hyz, hzy] at hbc
          · have : y = z := by omega
            subst this
            simp [hxy]
        · by_cases hyx : y < x
          · simp [hxy, hyx] at hab
          · have : x = y := by omega
            subst this
            simp [hyz]
        · by_cases hyx : y < x
          · simp [hxy, hyx] at hab
          · by_cases hzy : z < y
            · simp [hyz, hzy] at hbc
            · have hx : x = y := by omega
              have hy : y = z := by omega
              subst hx; subst hy
              simp only [lt_irrefl, if_false] at hab hbc ⊢
              exact ih hab hbc

/-- Little-endian digits of a number, fixed width, as Go's
`binary.LittleEndian.PutUint32` produces for the in-range part. -/
def leBytes : Nat → Nat → Bytes
  | 0, _ => []
  | w + 1, n => n % 256 :: leBytes w (n / 256)

/-- Value of a little-endian byte string. -/
def leNat : Bytes → Nat
  | [] => 0
  | b :: bs => b + 256 * leNat bs

/-- Big-endian fixed-width digits, as `common.Address.Bytes` and
`common.Hash.Bytes` expose fixed-width big-endian words. -/
def beBytes (w n : Nat) : Bytes := (leBytes w n).reverse

/-- Value of a big-endian byte string. -/
def beNat (bs : Bytes) : Nat := leNat bs.reverse

theorem leBytes_length (w n : Nat) : (leBytes w n).length = w := by
  induction w generalizing n with
  | zero => rfl
  | succ w ih => simp [leBytes, ih]

theorem beBytes_length (w n : Nat) : (beBytes w n).length = w := by
  simp [beBytes, leBytes_length]

theorem leNat_leBytes (w n : Nat) : leNat (leBytes w n) = n % 256 ^ w := by
  induction w generalizing n with
  | zero => simp [leBytes, leNat, Nat.mod_one]
  | succ w ih =>
    simp only [leBytes, leNat, ih]
    rw [pow_succ, mul_comm (256 ^ w) 256, Nat.mod_mul]

theorem leNat_leBytes_of_lt {w n : Nat} (h : n < 256 ^ w) :
    leNat (leBytes w n) = n := by
  rw [leNat_leBytes, Nat.mod_eq_of_lt h]

theorem beNat_beBytes (w n : Nat) : beNat (beBytes w n) = n % 256 ^ w := by
  simp [beNat, beBytes, leNat_leBytes]

theorem beNat_beBytes_of_lt {w n : Nat} (h : n < 256 ^ w) :
    beNat (beBytes w n) = n := by
  rw [beNat_beBytes, Nat.mod_eq_of_lt h]

theorem leBytes_isByteStream (w n : Nat) : IsByteStream (leBytes w n) := by
  induction w generalizing n with
  | zero => intro b hb; simp [leBytes] at hb
  | succ w ih =>
    intro b hb
    simp only [leBytes, List.mem_cons] at hb
    rcases hb with h | h
    · omega
    · exact ih (n / 256) b h

theorem beBytes_isByteStream (w n : Nat) : IsByteStream (beBytes w n) := by
  intro b hb
  exact leBytes_isByteStream w n b (by simpa [beBytes] using hb)

end GethState

namespace GethState

/-
State history codec, embedded from `History.encode`, `decoder.verify`,
`decoder.readAccount`, `decoder.readStorage` and `History.decode` of the
history package. Addresses are 20-byte words and slot hashes 32-byte
words, represented by their numeric value (Go compares them with
`bytes.Compare` over fixed-width big-endian bytes, which coincides with
numeric comparison). The `History` maps plus their sorted key lists are
represented as key-ordered association lists.
-/

/-- Modelled from the spec: the fixed account index layout
`(address, len:u8, offset:u32, storage_offset:u32, storage_slots:u32)`;
the byte-level packing of `accountIndex.encode`/`decode` is not in the
sources, only its fixed total size and field widths are specified. -/
def accountIndexSize : Nat := 33

/-- Modelled from the spec: the fixed slot index layout
`(slot_hash, len:u8, offset:u32)`. -/
def slotIndexSize : Nat := 37

/-- Account index entry of a state history record. -/
structure accountIndex where
  address : Nat
  length : Nat
  offset : Nat
  storageOffset : Nat
  storageSlots : Nat
deriving Repr, DecidableEq

/-- Modelled from the spec: fixed-width packing of an account index
(address bytes, one length byte, little-endian numeric fields). -/
def accountIndex.encode (i : accountIndex) : Bytes :=
  beBytes 20 i.address ++ [i.length % U8] ++ leBytes 4 i.offset ++
    leBytes 4 i.storageOffset ++ leBytes 4 i.storageSlots

/-- Modelled from the spec: inverse of the fixed-width account index
packing. -/
def accountIndex.decode (bs : Bytes) : accountIndex :=
  { address := beNat (bs.take 20)
    length := (bs.drop 20).headD 0
    offset := leNat ((bs.drop 21).take 4)
    storageOffset := leNat ((bs.drop 25).take 4)
    storageSlots := leNat ((bs.drop 29).take 4) }

/-- Storage slot index entry of a state history record. -/
structure slotIndex where
  hash : Nat
  length : Nat
  offset : Nat
deriving Repr, DecidableEq

/-- Modelled from the spec: fixed-width packing of a slot index. -/
def slotIndex.encode (i : slotIndex) : Bytes :=
  beBytes 32 i.hash ++ [i.length % U8] ++ leBytes 4 i.offset

/-- Modelled from the spec: inverse of the fixed-width slot index
packing. -/
def slotIndex.decode (bs : Bytes) : slotIndex :=
  { hash := beNat (bs.take 32)
    length := (bs.drop 32).headD 0
    offset := leNat ((bs.drop 33).take 4) }

/-- First-match association list lookup, standing in for a Go map read. -/
def alookup {α : Type} : List (Nat × α) → Nat → Option α
  | [], _ => none
  | (k, v) :: rest, key => if k = key then some v else alookup rest key

/-- A state history object: account pre-images keyed by address and
storage pre-images keyed by address and slot hash. The association list
order is the sorted key list (`accountList` / `storageList`) that the Go
struct keeps alongside each map. -/
structure History where
  accounts : List (Nat × Bytes)
  storages : List (Nat × List (Nat × Bytes))
deriving Repr, DecidableEq

/-- State threaded by the encoding loop of `History.encode`. -/
structure encState where
  slotNumber : Nat
  accountData : Bytes
  storageData : Bytes
  accountIndexes : Bytes
  storageIndexes : Bytes
deriving Repr, DecidableEq

/-- Inner loop of `History.encode`: encode the storage slots of one
account in slot-list order. -/
def encodeSlots : List (Nat × Bytes) → encState → encState
  | [], st => st
  | (slotHash, blob) :: rest, st =>
    let sIndex : slotIndex :=
      { hash := slotHash, length := blob.length % U8,
        offset := st.storageData.length % U32 }
    encodeSlots rest
      { st with storageData := st.storageData ++ blob,
                storageIndexes := st.storageIndexes ++ sIndex.encode }

/-- Outer loop of `History.encode`: walk the sorted account list,
encoding each account's pre-image and storage slots. -/
def encodeAccounts (storages : List (Nat × List (Nat × Bytes))) :
    List (Nat × Bytes) → encState → encState
  | [], st => st
  | (addr, blob) :: rest, st =>
    let base : accountIndex :=
      { address := addr, length := blob.length % U8,
        offset := st.accountData.length % U32,
        storageOffset := 0, storageSlots := 0 }
    match alookup storages addr with
    | some slots =>
      let accIndex : accountIndex :=
        { base with storageOffset := st.slotNumber,
                    storageSlots := slots.length % U32 }
      let st1 := encodeSlots slots st
      let st2 := { st1 with slotNumber := (st1.slotNumber + slots.length) % U32 }
      encodeAccounts storages rest
        { st2 with accountData := st2.accountData ++ blob,
                   accountIndexes := st2.accountIndexes ++ accIndex.encode }
    | none =>
      encodeAccounts storages rest
        { st with accountData := st.accountData ++ blob,
                  accountIndexes := st.accountIndexes ++ base.encode }

/-- Embedding of `History.encode`: serializes the history into the four
byte streams (account data, storage data, account indexes, storage
indexes). -/
def History.encode (h : History) : Bytes × Bytes × Bytes × Bytes :=
  let st := encodeAccounts h.storages h.accounts ⟨0, [], [], [], []⟩
  (st.accountData, st.storageData, st.accountIndexes, st.storageIndexes)

/-- Decoder failures; one constructor per distinct error produced by
`decoder.verify`, `decoder.readAccount` and `decoder.readStorage` (all
surfaced to callers as the abstract `CorruptedHistory` failure). -/
inductive HErr where
  | invalidAccountIndexLen
  | invalidStorageIndexLen
  | accountDataCorrupted
  | accountNotInOrder
  | accountDataGapped
  | storageIndexGapped
  | storageIndexCorrupted
  | slotNotInOrder
  | storageDataGapped
  | storageDataCorrupted
deriving Repr, DecidableEq

/-- The four byte streams wrapped by the decoder. -/
structure decoderStreams where
  accountData : Bytes
  storageData : Bytes
  accountIndexes : Bytes
  storageIndexes : Bytes
deriving Repr, DecidableEq

/-- Mutable cursor fields of the decoder. -/
structure decoderState where
  lastAccount : Option Nat
  lastAccountRead : Nat
  lastSlotIndexRead : Nat
  lastSlotDataRead : Nat
deriving Repr, DecidableEq

/-- Embedding of `decoder.verify`: alignment of both index streams and
non-emptiness of the account index stream. -/
def decoder.verify (r : decoderStreams) : Except HErr Unit :=
  if r.accountIndexes.length % accountIndexSize ≠ 0 ∨
      r.accountIndexes.length = 0 then
    .error .invalidAccountIndexLen
  else if r.storageIndexes.length % slotIndexSize ≠ 0 then
    .error .invalidStorageIndexLen
  else .ok ()

/-- Ordering guard of `decoder.readAccount`: a previously read address
must compare strictly below the current one. -/
def notInOrder (last : Option Nat) (addr : Nat) : Bool :=
  match last with
  | some a => addr ≤ a
  | none => false

/-- Embedding of `decoder.readAccount`: decode the account index at
`pos`, check ordering, gap-freeness and bounds, and slice the account
pre-image out of the account data stream. The `% U32` occurrences mirror
Go's `uint32` casts and additions. -/
def decoder.readAccount (r : decoderStreams) (s : decoderState) (pos : Nat) :
    Except HErr (accountIndex × Bytes × decoderState) :=
  if (pos + 1) * accountIndexSize > r.accountIndexes.length then
    .error .accountDataCorrupted
  else
    let index :=
      accountIndex.decode
        ((r.accountIndexes.drop (pos * accountIndexSize)).take accountIndexSize)
    if notInOrder s.lastAccount index.address then
      .error .accountNotInOrder
    else if index.offset ≠ s.lastAccountRead then
      .error .accountDataGapped
    else
      let last := (index.offset + index.length) % U32
      if r.accountData.length % U32 < last then
        .error .accountDataCorrupted
      else
        let data := (r.accountData.drop index.offset).take (last - index.offset)
        .ok (index, data,
          { s with lastAccount := some index.address, lastAccountRead := last })

/-- Loop body of `decoder.readStorage`: read `count` slot indexes of one
account, starting at slot counter `j`, threading the last decoded slot
hash (initially the zero hash). -/
def decoder.readSlots (r : decoderStreams) (storageOffset : Nat) :
    Nat → Nat → Nat → decoderState →
      Except HErr (List (Nat × Bytes) × decoderState)
  | 0, _, _, s => .ok ([], s)
  | count + 1, j, lastHash, s =>
    let start := ((storageOffset + j) * slotIndexSize) % U32
    let endPos := ((storageOffset + (j + 1)) * slotIndexSize) % U32
    if start ≠ s.lastSlotIndexRead then
      .error .storageIndexGapped
    else if r.storageIndexes.length % U32 < endPos then
      .error .storageIndexCorrupted
    else
      let index := slotIndex.decode ((r.storageIndexes.drop start).take slotIndexSize)
      if lastHash ≥ index.hash then
        .error .slotNotInOrder
      else if index.offset ≠ s.lastSlotDataRead then
        .error .storageDataGapped
      else
        let sEnd := (index.offset + index.length) % U32
        if r.storageData.length % U32 < sEnd then
          .error .storageDataCorrupted
        else
          let blob := (r.storageData.drop s.lastSlotDataRead).take (sEnd - s.lastSlotDataRead)
          match decoder.readSlots r storageOffset count (j + 1) index.hash
              { s with lastSlotIndexRead := endPos, lastSlotDataRead := sEnd } with
          | .error e => .error e
          | .ok (rest, s2) => .ok ((index.hash, blob) :: rest, s2)

/-- Embedding of `decoder.readStorage`: read all storage slots announced
by an account index. -/
def decoder.readStorage (r : decoderStreams) (s : decoderState)
    (accIndex : accountIndex) :
    Except HErr (List (Nat × Bytes) × decoderState) :=
  decoder.readSlots r accIndex.storageOffset accIndex.storageSlots 0 0 s

/-- Account loop of `History.decode`. -/
def decodeLoop (r : decoderStreams) :
    Nat → Nat → decoderState →
      Except HErr (List (Nat × Bytes) × List (Nat × List (Nat × Bytes)))
  | 0, _, _ => .ok ([], [])
  | count + 1, pos, s =>
    match decoder.readAccount r s pos with
    | .error e => .error e
    | .ok (accIndex, accData, s1) =>
      match decoder.readStorage r s1 accIndex with
      | .error e => .error e
      | .ok (slots, s2) =>
        match decodeLoop r count (pos + 1) s2 with
        | .error e => .error e
        | .ok (accs, stors) =>
          .ok ((accIndex.address, accData) :: accs,
            if slots.length > 0 then (accIndex.address, slots) :: stors
            else stors)

/-- Embedding of `History.decode`: verify the streams and run the
account loop over `len(accountIndexes) / accountIndexSize` entries. -/
def History.decode (accountData storageData accountIndexes storageIndexes : Bytes) :
    Except HErr History :=
  let r : decoderStreams := ⟨accountData, storageData, accountIndexes, storageIndexes⟩
  match decoder.verify r with
  | .error e => .error e
  | .ok _ =>
    match decodeLoop r (accountIndexes.length / accountIndexSize) 0 ⟨none, 0, 0, 0⟩ with
    | .error e => .error e
    | .ok (accs, stors) => .ok { accounts := accs, storages := stors }

end GethState

namespace GethState

theorem accountIndex_encode_length (i : accountIndex) :
    i.encode.length = accountIndexSize := by
  simp [accountIndex.encode, accountIndexSize, beBytes_length, leBytes_length]

theorem slotIndex_encode_length (i : slotIndex) :
    i.encode.length = slotIndexSize := by
  simp [slotIndex.encode, slotIndexSize, beBytes_length, leBytes_length]

theorem take_append_len {α : Type} (a b : List α) (n : Nat) (h : a.length = n) :
    (a ++ b).take n = a := by
  subst h; exact List.take_left a b

theorem drop_append_len {α : Type} (a b : List α) (n : Nat) (h : a.length = n) :
    (a ++ b).drop n = b := by
  subst h; exact List.drop_left a b

theorem accountIndex_decode_encode (i : accountIndex) :
    accountIndex.decode i.encode =
      ⟨i.address % 2 ^ 160, i.length % U8, i.offset % U32,
        i.storageOffset % U32, i.storageSlots % U32⟩ := by
  have henc : i.encode = beBytes 20 i.address ++
      ([i.length % U8] ++ (leBytes 4 i.offset ++
        (leBytes 4 i.storageOffset ++ leBytes 4 i.storageSlots))) := by
    simp [accountIndex.encode, List.append_assoc]
  have hTake : i.encode.take 20 = beBytes 20 i.address := by
    rw [henc, take_append_len _ _ 20 (beBytes_length 20 i.address)]
  have hDrop20 : i.encode.drop 20 =
      [i.length % U8] ++ (leBytes 4 i.offset ++
        (leBytes 4 i.storageOffset ++ leBytes 4 i.storageSlots)) := by
    rw [henc, drop_append_len _ _ 20 (beBytes_length 20 i.address)]
  have hDrop21 : i.encode.drop 21 =
      leBytes 4 i.offset ++ (leBytes 4 i.storageOffset ++ leBytes 4 i.storageSlots) := by
    have h21 : (21 : Nat) = 20 + 1 := by norm_num
    rw [h21, ← List.drop_drop, hDrop20]
    rfl
  have hDrop25 : i.encode.drop 25 =
      leBytes 4 i.storageOffset ++ leBytes 4 i.storageSlots := by
    have h25 : (25 : Nat) = 21 + 4 := by norm_num
    rw [h25, ← List.drop_drop, hDrop21,
      drop_append_len _ _ 4 (leBytes_length 4 i.offset)]
  have hDrop29 : i.encode.drop 29 = leBytes 4 i.storageSlots := by
    have h29 : (29 : Nat) = 25 + 4 := by norm_num
    rw [h29, ← List.drop_drop, hDrop25,
      drop_append_len _ _ 4 (leBytes_length 4 i.storageOffset)]
  have h256 : (256 : Nat) ^ 20 = 2 ^ 160 := by norm_num
  have h232 : (256 : Nat) ^ 4 = U32 := by norm_num [U32]
  simp only [accountIndex.decode, hTake, hDrop20, hDrop21, hDrop25, hDrop29,
    accountIndex.mk.injEq]
  refine ⟨?_, ?_, ?_, ?_, ?_⟩
  · rw [beNat_beBytes, h256]
  · simp [List.headD]
  · rw [take_append_len _ _ 4 (leBytes_length 4 i.offset), leNat_leBytes, h232]
  · rw [take_append_len _ _ 4 (leBytes_length 4 i.storageOffset), leNat_leBytes, h232]
  · have hself : leBytes 4 i.storageSlots =
        leBytes 4 i.storageSlots ++ ([] : Bytes) := by simp
    rw [hself, take_append_len _ _ 4 (leBytes_length 4 i.storageSlots),
      leNat_leBytes, h232]

theorem slotIndex_decode_encode (i : slotIndex) :
    slotIndex.decode i.encode =
      ⟨i.hash % 2 ^ 256, i.length % U8, i.offset % U32⟩ := by
  have henc : i.encode = beBytes 32 i.hash ++
      ([i.length % U8] ++ leBytes 4 i.offset) := by
    simp [slotIndex.encode, List.append_assoc]
  have hTake : i.encode.take 32 = beBytes 32 i.hash := by
    rw [henc, take_append_len _ _ 32 (beBytes_length 32 i.hash)]
  have hDrop32 : i.encode.drop 32 = [i.length % U8] ++ leBytes 4 i.offset := by
    rw [henc, drop_append_len _ _ 32 (beBytes_length 32 i.hash)]
  have hDrop33 : i.encode.drop 33 = leBytes 4 i.offset := by
    have h33 : (33 : Nat) = 32 + 1 := by norm_num
    rw [h33, ← List.drop_drop, hDrop32]
    rfl
  have h256 : (256 : Nat) ^ 32 = 2 ^ 256 := by norm_num
  have h232 : (256 : Nat) ^ 4 = U32 := by norm_num [U32]
  simp only [slotIndex.decode, hTake, hDrop32, hDrop33, slotIndex.mk.injEq]
  refine ⟨?_, ?_, ?_⟩
  · rw [beNat_beBytes, h256]
  · simp [List.headD]
  · have hself : leBytes 4 i.offset = leBytes 4 i.offset ++ ([] : Bytes) := by simp
    rw [hself, take_append_len _ _ 4 (leBytes_length 4 i.offset), leNat_leBytes, h232]

end GethState

namespace GethState

/-- Concatenated pre-image blobs of a slot list, as the storage data
stream accumulates them. -/
def slotsData (slots : List (Nat × Bytes)) : Bytes := (slots.map Prod.snd).flatten

/-- Slot index stream of one account, given the storage data offset at
which its first blob lands. -/
def slotsIndexBytes : Nat → List (Nat × Bytes) → Bytes
  | _, [] => []
  | off, (hsh, blob) :: rest =>
    slotIndex.encode ⟨hsh, blob.length % U8, off % U32⟩ ++
      slotsIndexBytes (off + blob.length) rest

/-- Concatenated account pre-image blobs. -/
def accData (accs : List (Nat × Bytes)) : Bytes := (accs.map Prod.snd).flatten

/-- Account index stream, given the starting account data offset and
slot counter. -/
def accIndexStreamOf (storages : List (Nat × List (Nat × Bytes))) :
    List (Nat × Bytes) → Nat → Nat → Bytes
  | [], _, _ => []
  | (addr, blob) :: rest, aOff, slotNum =>
    match alookup storages addr with
    | some slots =>
      accountIndex.encode ⟨addr, blob.length % U8, aOff % U32, slotNum,
          slots.length % U32⟩ ++
        accIndexStreamOf storages rest (aOff + blob.length)
          ((slotNum + slots.length) % U32)
    | none =>
      accountIndex.encode ⟨addr, blob.length % U8, aOff % U32, 0, 0⟩ ++
        accIndexStreamOf storages rest (aOff + blob.length) slotNum

/-- Storage data stream restricted to the given accounts. -/
def storDataOf (storages : List (Nat × List (Nat × Bytes))) :
    List (Nat × Bytes) → Bytes
  | [] => []
  | (addr, _) :: rest =>
    (match alookup storages addr with
     | some slots => slotsData slots
     | none => []) ++ storDataOf storages rest

/-- Storage index stream restricted to the given accounts, given the
starting storage data offset. -/
def storIndexOf (storages : List (Nat × List (Nat × Bytes))) :
    List (Nat × Bytes) → Nat → Bytes
  | [], _ => []
  | (addr, _) :: rest, sdOff =>
    match alookup storages addr with
    | some slots =>
      slotsIndexBytes sdOff slots ++
        storIndexOf storages rest (sdOff + (slotsData slots).length)
    | none => storIndexOf storages rest sdOff

/-- Slot counter value after encoding the given accounts. -/
def slotNumAfter (storages : List (Nat × List (Nat × Bytes))) :
    List (Nat × Bytes) → Nat → Nat
  | [], snum => snum
  | (addr, _) :: rest, snum =>
    match alookup storages addr with
    | some slots => slotNumAfter storages rest ((snum + slots.length) % U32)
    | none => slotNumAfter storages rest snum

theorem encodeSlots_spec (slots : List (Nat × Bytes)) (st : encState) :
    encodeSlots slots st =
      { st with storageData := st.storageData ++ slotsData slots,
                storageIndexes :=
                  st.storageIndexes ++ slotsIndexBytes st.storageData.length slots } := by
  induction slots generalizing st with
  | nil => simp [encodeSlots, slotsData, slotsIndexBytes]
  | cons p rest ih =>
    obtain ⟨hsh, blob⟩ := p
    simp only [encodeSlots, ih]
    simp [slotsData, slotsIndexBytes, List.append_assoc, List.length_append]

theorem encodeAccounts_spec (storages : List (Nat × List (Nat × Bytes)))
    (accs : List (Nat × Bytes)) (st : encState) :
    encodeAccounts storages accs st =
      ⟨slotNumAfter storages accs st.slotNumber,
        st.accountData ++ accData accs,
        st.storageData ++ storDataOf storages accs,
        st.accountIndexes ++
          accIndexStreamOf storages accs st.accountData.length st.slotNumber,
        st.storageIndexes ++ storIndexOf storages accs st.storageData.length⟩ := by
  induction accs generalizing st with
  | nil => simp [encodeAccounts, accData, storDataOf, accIndexStreamOf, storIndexOf,
      slotNumAfter]
  | cons p rest ih =>
    obtain ⟨addr, blob⟩ := p
    simp only [encodeAccounts]
    cases hlk : alookup storages addr with
    | none =>
      dsimp only
      rw [ih]
      simp only [accData, storDataOf, accIndexStreamOf, storIndexOf, slotNumAfter, hlk,
        List.map_cons, List.flatten_cons]
      refine encState.mk.injEq .. ▸ ⟨rfl, ?_, ?_, ?_, ?_⟩ <;>
        simp [List.append_assoc, List.length_append]
    | some slots =>
      dsimp only
      rw [encodeSlots_spec, ih]
      simp only [accData, storDataOf, accIndexStreamOf, storIndexOf, slotNumAfter, hlk,
        List.map_cons, List.flatten_cons]
      refine encState.mk.injEq .. ▸ ⟨rfl, ?_, ?_, ?_, ?_⟩ <;>
        simp [slotsData, List.append_assoc, List.length_append]

/-- The four streams of `History.encode` in terms of the stream
builders. -/
theorem History.encode_eq (h : History) :
    h.encode =
      (accData h.accounts, storDataOf h.storages h.accounts,
        accIndexStreamOf h.storages h.accounts 0 0,
        storIndexOf h.storages h.accounts 0) := by
  simp [History.encode, encodeAccounts_spec]

end GethState

namespace GethState

theorem slotsData_cons (p : Nat × Bytes) (rest : List (Nat × Bytes)) :
    slotsData (p :: rest) = p.2 ++ slotsData rest := by
  simp [slotsData]

theorem slotsData_length (slots : List (Nat × Bytes)) :
    (slotsData slots).length = (slots.map (fun p => p.2.length)).sum := by
  induction slots with
  | nil => simp [slotsData]
  | cons p rest ih => simp [slotsData_cons, ih]

theorem slotsIndexBytes_length (off : Nat) (slots : List (Nat × Bytes)) :
    (slotsIndexBytes off slots).length = slotIndexSize * slots.length := by
  induction slots generalizing off with
  | nil => simp [slotsIndexBytes]
  | cons p rest ih =>
    obtain ⟨hsh, blob⟩ := p
    simp only [slotsIndexBytes, List.length_append, slotIndex_encode_length, ih,
      List.length_cons]
    ring

theorem accIndexStreamOf_length (storages : List (Nat × List (Nat × Bytes)))
    (accs : List (Nat × Bytes)) (aOff slotNum : Nat) :
    (accIndexStreamOf storages accs aOff slotNum).length =
      accountIndexSize * accs.length := by
  induction accs generalizing aOff slotNum with
  | nil => simp [accIndexStreamOf]
  | cons p rest ih =>
    obtain ⟨addr, blob⟩ := p
    cases hlk : alookup storages addr <;>
      simp only [accIndexStreamOf, hlk, List.length_append,
        accountIndex_encode_length, ih, List.length_cons] <;> ring

/-- Well-formed slot list of one account: non-empty, strictly ascending
non-zero slot hashes in range, blob lengths within a `uint8`. -/
def slotsWF (slots : List (Nat × Bytes)) : Prop :=
  slots ≠ [] ∧ List.Pairwise (fun p q => p.1 < q.1) slots ∧
    ∀ p ∈ slots, 1 ≤ p.1 ∧ p.1 < 2 ^ 256 ∧ p.2.length ≤ 255

/-- Well-formed history: strictly ascending addresses in range, account
blob lengths within a `uint8`, the storage map keyed by a subset of the
mutated accounts (in the same ascending order), and well-formed slot
lists. This is the shape `History.New` constructs. -/
def History.WF (h : History) : Prop :=
  List.Pairwise (fun p q => p.1 < q.1) h.accounts ∧
    (∀ p ∈ h.accounts, p.1 < 2 ^ 160 ∧ p.2.length ≤ 255) ∧
    List.Pairwise (fun p q => p.1 < q.1) h.storages ∧
    List.Sublist (h.storages.map Prod.fst) (h.accounts.map Prod.fst) ∧
    ∀ p ∈ h.storages, slotsWF p.2

/-- The encoded data and storage index streams fit into the `uint32`
cursors the decoder uses. -/
def History.SizeOK (h : History) : Prop :=
  h.encode.1.length < U32 ∧ h.encode.2.1.length < U32 ∧
    h.encode.2.2.2.length < U32

/-- Reading back the slots of one account from streams that carry its
encoded slot index and data runs at the decoder cursor positions. -/
theorem readSlots_encoded (r : decoderStreams) (K : Nat)
    (slots : List (Nat × Bytes)) (siSuf sdSuf : Bytes) :
    ∀ (j lastHash : Nat) (s : decoderState),
      r.storageIndexes.drop s.lastSlotIndexRead =
        slotsIndexBytes s.lastSlotDataRead slots ++ siSuf →
      r.storageIndexes.length =
        s.lastSlotIndexRead + (slotIndexSize * slots.length + siSuf.length) →
      r.storageData.drop s.lastSlotDataRead = slotsData slots ++ sdSuf →
      r.storageData.length =
        s.lastSlotDataRead + ((slotsData slots).length + sdSuf.length) →
      s.lastSlotIndexRead = slotIndexSize * (K + j) →
      r.storageIndexes.length < U32 →
      r.storageData.length < U32 →
      List.Pairwise (fun p q => p.1 < q.1) slots →
      (∀ p ∈ slots, p.1 < 2 ^ 256 ∧ p.2.length ≤ 255 ∧ lastHash < p.1) →
      decoder.readSlots r K slots.length j lastHash s =
        .ok (slots,
          { s with
              lastSlotIndexRead :=
                s.lastSlotIndexRead + slotIndexSize * slots.length,
              lastSlotDataRead :=
                s.lastSlotDataRead + (slotsData slots).length }) := by
  induction slots with
  | nil =>
    intro j lastHash s _ _ _ _ _ _ _ _ _
    simp [decoder.readSlots, slotsData]
  | cons p srest ih =>
    intro j lastHash s hsi hsiLen hsd hsdLen hpos hsiU hsdU hpair hmem
    obtain ⟨hsh, sblob⟩ := p
    simp only [List.length_cons] at hsiLen
    rw [slotsData_cons] at hsd hsdLen
    simp only [List.length_append] at hsdLen
    have hlen37 : (slotIndex.encode
        ⟨hsh, sblob.length % U8, s.lastSlotDataRead % U32⟩).length = slotIndexSize :=
      slotIndex_encode_length _
    have hsiDecomp : r.storageIndexes.drop s.lastSlotIndexRead =
        slotIndex.encode ⟨hsh, sblob.length % U8, s.lastSlotDataRead % U32⟩ ++
          (slotsIndexBytes (s.lastSlotDataRead + sblob.length) srest ++ siSuf) := by
      rw [hsi]
      simp [slotsIndexBytes, List.append_assoc]
    have hbounds := hmem (hsh, sblob) (List.mem_cons_self _ _)
    have hhash256 : hsh < 2 ^ 256 := hbounds.1
    have hblob255 : sblob.length ≤ 255 := hbounds.2.1
    have hlastlt : lastHash < hsh := hbounds.2.2
    have hsirLe : s.lastSlotIndexRead + slotIndexSize ≤ r.storageIndexes.length := by
      have h1 : slotIndexSize ≤ slotIndexSize * (srest.length + 1) :=
        Nat.le_mul_of_pos_right _ (by omega)
      omega
    have hstart : ((K + j) * slotIndexSize) % U32 = s.lastSlotIndexRead := by
      have : (K + j) * slotIndexSize = s.lastSlotIndexRead := by rw [hpos]; ring
      rw [this, Nat.mod_eq_of_lt (by omega)]
    have hendPos : ((K + (j + 1)) * slotIndexSize) % U32 =
        s.lastSlotIndexRead + slotIndexSize := by
      have : (K + (j + 1)) * slotIndexSize = s.lastSlotIndexRead + slotIndexSize := by
        rw [hpos]; ring
      rw [this, Nat.mod_eq_of_lt (by omega)]
    have hsdrU : s.lastSlotDataRead < U32 := by omega
    have hidx : slotIndex.decode ((r.storageIndexes.drop
        s.lastSlotIndexRead).take slotIndexSize) =
        ⟨hsh, sblob.length, s.lastSlotDataRead⟩ := by
      rw [hsiDecomp, take_append_len _ _ slotIndexSize hlen37,
        slotIndex_decode_encode]
      dsimp only
      have e1 : hsh % 2 ^ 256 = hsh := Nat.mod_eq_of_lt hhash256
      have e2 : sblob.length % U8 % U8 = sblob.length := by
        simp only [U8]
        omega
      have e3 : s.lastSlotDataRead % U32 % U32 = s.lastSlotDataRead := by
        have h4 := hsdrU
        simp only [U32] at h4 ⊢
        omega
      rw [slotIndex.mk.injEq]
      exact ⟨e1, e2, e3⟩
    have hsEnd : (s.lastSlotDataRead + sblob.length) % U32 =
        s.lastSlotDataRead + sblob.length :=
      Nat.mod_eq_of_lt (by omega)
    have hblobSlice : (r.storageData.drop s.lastSlotDataRead).take
        (s.lastSlotDataRead + sblob.length - s.lastSlotDataRead) = sblob := by
      rw [hsd, Nat.add_sub_cancel_left, List.append_assoc,
        take_append_len _ _ _ rfl]
    have hg1 : ¬ (s.lastSlotIndexRead ≠ s.lastSlotIndexRead) := by simp
    have hg2 : ¬ (r.storageIndexes.length % U32 <
        s.lastSlotIndexRead + slotIndexSize) := by
      rw [Nat.mod_eq_of_lt hsiU]
      omega
    have hg3 : ¬ (lastHash ≥ hsh) := by omega
    have hg4 : ¬ (s.lastSlotDataRead ≠ s.lastSlotDataRead) := by simp
    have hg5 : ¬ (r.storageData.length % U32 <
        s.lastSlotDataRead + sblob.length) := by
      rw [Nat.mod_eq_of_lt hsdU]
      omega
    have hpair2 := List.pairwise_cons.mp hpair
    have hih := ih (j + 1) hsh
      { s with lastSlotIndexRead := s.lastSlotIndexRead + slotIndexSize,
               lastSlotDataRead := s.lastSlotDataRead + sblob.length }
      (by
        show r.storageIndexes.drop (s.lastSlotIndexRead + slotIndexSize) = _
        rw [← List.drop_drop, hsiDecomp,
          drop_append_len _ _ slotIndexSize hlen37])
      (by
        show r.storageIndexes.length =
          s.lastSlotIndexRead + slotIndexSize + _
        simp only [slotIndexSize] at hsiLen ⊢
        omega)
      (by
        show r.storageData.drop (s.lastSlotDataRead + sblob.length) = _
        rw [← List.drop_drop, hsd, List.append_assoc,
          drop_append_len _ _ _ rfl])
      (by
        show r.storageData.length = s.lastSlotDataRead + sblob.length + _
        omega)
      (by
        show s.lastSlotIndexRead + slotIndexSize = slotIndexSize * (K + (j + 1))
        rw [hpos]
        ring)
      hsiU hsdU hpair2.2
      (fun q hq => ⟨(hmem q (List.mem_cons_of_mem _ hq)).1,
        (hmem q (List.mem_cons_of_mem _ hq)).2.1, hpair2.1 q hq⟩)
    simp only [List.length_cons, decoder.readSlots]
    rw [hstart, hendPos, hidx]
    dsimp only
    rw [if_neg hg1, if_neg hg2, if_neg hg3, if_neg hg4, hsEnd, if_neg hg5,
      hblobSlice, hih]
    dsimp only
    simp only [slotsData_cons, List.length_append]
    have e1 : s.lastSlotIndexRead + slotIndexSize + slotIndexSize * srest.length =
        s.lastSlotIndexRead + slotIndexSize * (srest.length + 1) := by ring
    have e2 : s.lastSlotDataRead + sblob.length + (slotsData srest).length =
        s.lastSlotDataRead + (sblob.length + (slotsData srest).length) := by ring
    rw [e1, e2]

end GethState

namespace GethState

/-- Address ordering against the decoder's optional last address. -/
def optAddrLt : Option Nat → Nat → Prop
  | none, _ => True
  | some a, b => a < b

theorem notInOrder_false {last : Option Nat} {addr : Nat}
    (h : optAddrLt last addr) : notInOrder last addr = false := by
  cases last with
  | none => rfl
  | some a =>
    simp only [optAddrLt] at h
    simp only [notInOrder, decide_eq_false_iff_not]
    omega

/-- The storage association list reconstructed by the decode loop:
accounts in order, keeping those with a non-empty slot list. -/
def storagesOf (storages : List (Nat × List (Nat × Bytes))) :
    List (Nat × Bytes) → List (Nat × List (Nat × Bytes))
  | [] => []
  | (addr, _) :: rest =>
    match alookup storages addr with
    | some slots =>
      if slots.length > 0 then (addr, slots) :: storagesOf storages rest
      else storagesOf storages rest
    | none => storagesOf storages rest

/-- Running the decode loop over streams produced by the encoder yields
back the remaining accounts and their storage slots. -/
theorem decodeLoop_encoded (r : decoderStreams)
    (storages : List (Nat × List (Nat × Bytes)))
    (hlookWF : ∀ addr slots, alookup storages addr = some slots → slotsWF slots) :
    ∀ (accs : List (Nat × Bytes)) (pos slotNum : Nat) (s : decoderState),
      r.accountIndexes.drop (pos * accountIndexSize) =
        accIndexStreamOf storages accs s.lastAccountRead slotNum →
      r.accountIndexes.length =
        pos * accountIndexSize + accountIndexSize * accs.length →
      r.accountData.drop s.lastAccountRead = accData accs →
      r.accountData.length = s.lastAccountRead + (accData accs).length →
      r.storageIndexes.drop s.lastSlotIndexRead =
        storIndexOf storages accs s.lastSlotDataRead →
      r.storageIndexes.length =
        s.lastSlotIndexRead + (storIndexOf storages accs s.lastSlotDataRead).length →
      r.storageData.drop s.lastSlotDataRead = storDataOf storages accs →
      r.storageData.length = s.lastSlotDataRead + (storDataOf storages accs).length →
      s.lastSlotIndexRead = slotIndexSize * slotNum →
      r.accountData.length < U32 →
      r.storageIndexes.length < U32 →
      r.storageData.length < U32 →
      List.Pairwise (fun p q => p.1 < q.1) accs →
      (∀ p ∈ accs, p.1 < 2 ^ 160 ∧ p.2.length ≤ 255) →
      (∀ p ∈ accs, optAddrLt s.lastAccount p.1) →
      decodeLoop r accs.length pos s = .ok (accs, storagesOf storages accs) := by
  intro accs
  induction accs with
  | nil =>
    intro pos slotNum s _ _ _ _ _ _ _ _ _ _ _ _ _ _ _
    simp [decodeLoop, storagesOf]
  | cons p rest ih =>
    intro pos slotNum s hai haiLen had hadLen hsi hsiLen hsd hsdLen hpos hadU
      hsiU hsdU hpair hmem hprev
    obtain ⟨addr, blob⟩ := p
    have hpair2 := List.pairwise_cons.mp hpair
    have hbnd := hmem (addr, blob) (List.mem_cons_self _ _)
    have haddr160 : addr < 2 ^ 160 := hbnd.1
    have hblob255 : blob.length ≤ 255 := hbnd.2
    have haOffU : s.lastAccountRead < U32 := by
      simp only [accData, List.map_cons, List.flatten_cons,
        List.length_append] at hadLen
      omega
    have hslotNumU : slotNum < U32 := by
      have h37 : slotIndexSize * slotNum ≤ r.storageIndexes.length := by omega
      simp only [slotIndexSize] at h37
      simp only [U32] at hsiU ⊢
      omega
    -- decompose the account data stream
    rw [show accData ((addr, blob) :: rest) = blob ++ accData rest by
      simp [accData]] at had hadLen
    simp only [List.length_append] at hadLen
    cases hlk : alookup storages addr with
    | some slots =>
      have hwfS := hlookWF addr slots hlk
      obtain ⟨hne, hpairS, hmemS⟩ := hwfS
      have hlen33 : (accountIndex.encode ⟨addr, blob.length % U8,
          s.lastAccountRead % U32, slotNum, slots.length % U32⟩).length =
          accountIndexSize := accountIndex_encode_length _
      have haiDecomp : r.accountIndexes.drop (pos * accountIndexSize) =
          accountIndex.encode ⟨addr, blob.length % U8, s.lastAccountRead % U32,
            slotNum, slots.length % U32⟩ ++
            accIndexStreamOf storages rest (s.lastAccountRead + blob.length)
              ((slotNum + slots.length) % U32) := by
        rw [hai]
        simp [accIndexStreamOf, hlk]
      rw [show storIndexOf storages ((addr, blob) :: rest) s.lastSlotDataRead =
          slotsIndexBytes s.lastSlotDataRead slots ++
            storIndexOf storages rest
              (s.lastSlotDataRead + (slotsData slots).length) by
        simp [storIndexOf, hlk]] at hsi hsiLen
      rw [show storDataOf storages ((addr, blob) :: rest) =
          slotsData slots ++ storDataOf storages rest by
        simp [storDataOf, hlk]] at hsd hsdLen
      simp only [List.length_append, slotsIndexBytes_length] at hsiLen hsdLen
      have hslotsU : slots.length < U32 := by
        have : slotIndexSize * slots.length ≤ r.storageIndexes.length := by omega
        simp only [slotIndexSize] at this
        simp only [U32] at hsiU ⊢
        omega
      have hidx : accountIndex.decode ((r.accountIndexes.drop
          (pos * accountIndexSize)).take accountIndexSize) =
          ⟨addr, blob.length, s.lastAccountRead, slotNum, slots.length⟩ := by
        rw [haiDecomp, take_append_len _ _ accountIndexSize hlen33,
          accountIndex_decode_encode]
        dsimp only
        have e1 : addr % 2 ^ 160 = addr := Nat.mod_eq_of_lt haddr160
        have e2 : blob.length % U8 % U8 = blob.length := by
          simp only [U8]
          omega
        have e3 : s.lastAccountRead % U32 % U32 = s.lastAccountRead := by
          have h4 := haOffU
          simp only [U32] at h4 ⊢
          omega
        have e4 : slotNum % U32 = slotNum := Nat.mod_eq_of_lt hslotNumU
        have e5 : slots.length % U32 % U32 = slots.length := by
          have h4 := hslotsU
          simp only [U32] at h4 ⊢
          omega
        rw [accountIndex.mk.injEq]
        exact ⟨e1, e2, e3, e4, e5⟩
      have hg1 : ¬ ((pos + 1) * accountIndexSize > r.accountIndexes.length) := by
        simp only [accountIndexSize] at haiLen ⊢
        simp only [List.length_cons] at haiLen
        omega
      have hg2 : ¬ (notInOrder s.lastAccount addr = true) := by
        rw [notInOrder_false (hprev (addr, blob) (List.mem_cons_self _ _))]
        simp
      have hg3 : ¬ (s.lastAccountRead ≠ s.lastAccountRead) := by simp
      have hlast : (s.lastAccountRead + blob.length) % U32 =
          s.lastAccountRead + blob.length := Nat.mod_eq_of_lt (by omega)
      have hg4 : ¬ (r.accountData.length % U32 <
          s.lastAccountRead + blob.length) := by
        rw [Nat.mod_eq_of_lt hadU]
        omega
      have hdata : (r.accountData.drop s.lastAccountRead).take
          (s.lastAccountRead + blob.length - s.lastAccountRead) = blob := by
        rw [had, Nat.add_sub_cancel_left, take_append_len _ _ _ rfl]
      have hra : decoder.readAccount r s pos =
          .ok (⟨addr, blob.length, s.lastAccountRead, slotNum, slots.length⟩,
            blob,
            { s with lastAccount := some addr,
                     lastAccountRead := s.lastAccountRead + blob.length }) := by
        simp only [decoder.readAccount]
        rw [if_neg hg1, hidx]
        dsimp only
        rw [if_neg hg2, if_neg hg3, hlast, if_neg hg4, hdata]
      have hrs := readSlots_encoded r slotNum slots
        (storIndexOf storages rest (s.lastSlotDataRead + (slotsData slots).length))
        (storDataOf storages rest) 0 0
        { s with lastAccount := some addr,
                 lastAccountRead := s.lastAccountRead + blob.length }
        (by dsimp only; exact hsi)
        (by dsimp only; omega)
        (by dsimp only; exact hsd)
        (by dsimp only; omega)
        (by dsimp only; rw [hpos]; ring)
        hsiU hsdU hpairS
        (fun q hq => ⟨(hmemS q hq).2.1, (hmemS q hq).2.2, (hmemS q hq).1⟩)
      have hihApp := ih (pos + 1) (slotNum + slots.length)
        { s with lastAccount := some addr,
                 lastAccountRead := s.lastAccountRead + blob.length,
                 lastSlotIndexRead :=
                   s.lastSlotIndexRead + slotIndexSize * slots.length,
                 lastSlotDataRead :=
                   s.lastSlotDataRead + (slotsData slots).length }
        (by
          dsimp only
          have hstep : (pos + 1) * accountIndexSize =
              pos * accountIndexSize + accountIndexSize := by ring
          rw [hstep, ← List.drop_drop, haiDecomp,
            drop_append_len _ _ accountIndexSize hlen33]
          have : (slotNum + slots.length) % U32 = slotNum + slots.length := by
            apply Nat.mod_eq_of_lt
            have h37 : slotIndexSize * (slotNum + slots.length) ≤
                r.storageIndexes.length := by
              have := hpos
              simp only [Nat.mul_add] at *
              omega
            simp only [slotIndexSize] at h37
            simp only [U32] at hsiU ⊢
            omega
          rw [this])
        (by
          simp only [accountIndexSize, List.length_cons] at haiLen ⊢
          omega)
        (by
          dsimp only
          rw [← List.drop_drop, had, drop_append_len _ _ _ rfl])
        (by dsimp only; omega)
        (by
          dsimp only
          rw [← List.drop_drop, hsi, drop_append_len _ _ _
            (slotsIndexBytes_length _ _)])
        (by
          dsimp only
          omega)
        (by
          dsimp only
          rw [← List.drop_drop, hsd, drop_append_len _ _ _ rfl])
        (by dsimp only; omega)
        (by
          dsimp only
          rw [hpos]
          ring)
        hadU hsiU hsdU hpair2.2
        (fun q hq => hmem q (List.mem_cons_of_mem _ hq))
        (fun q hq => hpair2.1 q hq)
      simp only [List.length_cons, decodeLoop, hra]
      simp only [decoder.readStorage]
      rw [hrs]
      dsimp only
      rw [hihApp]
      dsimp only
      have hlenpos : slots.length > 0 := by
        cases slots with
        | nil => exact absurd rfl hne
        | cons a b => simp
      rw [if_pos hlenpos]
      simp only [storagesOf, hlk]
      rw [if_pos hlenpos]
    | none =>
      have hlen33 : (accountIndex.encode ⟨addr, blob.length % U8,
          s.lastAccountRead % U32, 0, 0⟩).length =
          accountIndexSize := accountIndex_encode_length _
      have haiDecomp : r.accountIndexes.drop (pos * accountIndexSize) =
          accountIndex.encode ⟨addr, blob.length % U8, s.lastAccountRead % U32,
            0, 0⟩ ++
            accIndexStreamOf storages rest (s.lastAccountRead + blob.length)
              slotNum := by
        rw [hai]
        simp [accIndexStreamOf, hlk]
      rw [show storIndexOf storages ((addr, blob) :: rest) s.lastSlotDataRead =
          storIndexOf storages rest s.lastSlotDataRead by
        simp [storIndexOf, hlk]] at hsi hsiLen
      rw [show storDataOf storages ((addr, blob) :: rest) =
          storDataOf storages rest by simp [storDataOf, hlk]] at hsd hsdLen
      have hidx : accountIndex.decode ((r.accountIndexes.drop
          (pos * accountIndexSize)).take accountIndexSize) =
          ⟨addr, blob.length, s.lastAccountRead, 0, 0⟩ := by
        rw [haiDecomp, take_append_len _ _ accountIndexSize hlen33,
          accountIndex_decode_encode]
        dsimp only
        have e1 : addr % 2 ^ 160 = addr := Nat.mod_eq_of_lt haddr160
        have e2 : blob.length % U8 % U8 = blob.length := by
          simp only [U8]
          omega
        have e3 : s.lastAccountRead % U32 % U32 = s.lastAccountRead := by
          have h4 := haOffU
          simp only [U32] at h4 ⊢
          omega
        rw [accountIndex.mk.injEq]
        refine ⟨e1, e2, e3, by simp [U32], by simp [U32]⟩
      have hg1 : ¬ ((pos + 1) * accountIndexSize > r.accountIndexes.length) := by
        simp only [accountIndexSize] at haiLen ⊢
        simp only [List.length_cons] at haiLen
        omega
      have hg2 : ¬ (notInOrder s.lastAccount addr = true) := by
        rw [notInOrder_false (hprev (addr, blob) (List.mem_cons_self _ _))]
        simp
      have hg3 : ¬ (s.lastAccountRead ≠ s.lastAccountRead) := by simp
      have hlast : (s.lastAccountRead + blob.length) % U32 =
          s.lastAccountRead + blob.length := Nat.mod_eq_of_lt (by omega)
      have hg4 : ¬ (r.accountData.length % U32 <
          s.lastAccountRead + blob.length) := by
        rw [Nat.mod_eq_of_lt hadU]
        omega
      have hdata : (r.accountData.drop s.lastAccountRead).take
          (s.lastAccountRead + blob.length - s.lastAccountRead) = blob := by
        rw [had, Nat.add_sub_cancel_left, take_append_len _ _ _ rfl]
      have hra : decoder.readAccount r s pos =
          .ok (⟨addr, blob.length, s.lastAccountRead, 0, 0⟩, blob,
            { s with lastAccount := some addr,
                     lastAccountRead := s.lastAccountRead + blob.length }) := by
        simp only [decoder.readAccount]
        rw [if_neg hg1, hidx]
        dsimp only
        rw [if_neg hg2, if_neg hg3, hlast, if_neg hg4, hdata]
      have hihApp := ih (pos + 1) slotNum
        { s with lastAccount := some addr,
                 lastAccountRead := s.lastAccountRead + blob.length }
        (by
          dsimp only
          have hstep : (pos + 1) * accountIndexSize =
              pos * accountIndexSize + accountIndexSize := by ring
          rw [hstep, ← List.drop_drop, haiDecomp,
            drop_append_len _ _ accountIndexSize hlen33])
        (by
          simp only [accountIndexSize, List.length_cons] at haiLen ⊢
          omega)
        (by
          dsimp only
          rw [← List.drop_drop, had, drop_append_len _ _ _ rfl])
        (by dsimp only; omega)
        (by dsimp only; exact hsi)
        (by dsimp only; omega)
        (by dsimp only; exact hsd)
        (by dsimp only; omega)
        (by dsimp only; exact hpos)
        hadU hsiU hsdU hpair2.2
        (fun q hq => hmem q (List.mem_cons_of_mem _ hq))
        (fun q hq => hpair2.1 q hq)
      simp only [List.length_cons, decodeLoop, hra]
      simp only [decoder.readStorage]
      simp only [decoder.readSlots]
      rw [hihApp]
      simp [storagesOf, hlk]

end GethState

namespace GethState

theorem alookup_mem {α : Type} {l : List (Nat × α)} {k : Nat} {v : α}
    (h : alookup l k = some v) : (k, v) ∈ l := by
  induction l with
  | nil => simp [alookup] at h
  | cons p rest ih =>
    obtain ⟨pk, pv⟩ := p
    by_cases hk : pk = k
    · subst hk
      simp only [alookup, if_pos rfl] at h
      cases h
      exact List.mem_cons_self _ _
    · simp only [alookup, if_neg hk] at h
      exact List.mem_cons_of_mem _ (ih h)

theorem storagesOf_nil (accs : List (Nat × Bytes)) :
    storagesOf [] accs = [] := by
  induction accs with
  | nil => rfl
  | cons p rest ih =>
    obtain ⟨a, b⟩ := p
    simp [storagesOf, alookup, ih]

theorem storagesOf_drop_head {k : Nat} {v : List (Nat × Bytes)}
    (srest : List (Nat × List (Nat × Bytes))) (accs : List (Nat × Bytes))
    (hne : ∀ p ∈ accs, p.1 ≠ k) :
    storagesOf ((k, v) :: srest) accs = storagesOf srest accs := by
  induction accs with
  | nil => rfl
  | cons p rest ih =>
    obtain ⟨a, b⟩ := p
    have hka : ¬ (k = a) := fun he =>
      hne (a, b) (List.mem_cons_self _ _) he.symm
    simp only [storagesOf, alookup, if_neg hka]
    rw [ih (fun q hq => hne q (List.mem_cons_of_mem _ hq))]

theorem alookup_none {α : Type} (l : List (Nat × α)) (k : Nat)
    (h : ∀ p ∈ l, p.1 ≠ k) : alookup l k = none := by
  induction l with
  | nil => rfl
  | cons p rest ih =>
    obtain ⟨pk, pv⟩ := p
    simp only [alookup, if_neg (h (pk, pv) (List.mem_cons_self _ _))]
    exact ih (fun q hq => h q (List.mem_cons_of_mem _ hq))

/-- Under the well-formedness invariants, the storage map reconstructed
by the decode loop is the original storage map. -/
theorem storagesOf_eq (storages : List (Nat × List (Nat × Bytes)))
    (accs : List (Nat × Bytes))
    (hsub : List.Sublist (storages.map Prod.fst) (accs.map Prod.fst))
    (hpairA : List.Pairwise (fun p q => p.1 < q.1) accs)
    (hpairS : List.Pairwise (fun p q => p.1 < q.1) storages)
    (hne : ∀ p ∈ storages, p.2 ≠ []) :
    storagesOf storages accs = storages := by
  induction accs generalizing storages with
  | nil =>
    cases storages with
    | nil => rfl
    | cons q srest => simp at hsub
  | cons p rest ih =>
    obtain ⟨a, b⟩ := p
    cases storages with
    | nil => exact storagesOf_nil _
    | cons q srest =>
      obtain ⟨k, v⟩ := q
      have hpairA2 := List.pairwise_cons.mp hpairA
      have hpairS2 := List.pairwise_cons.mp hpairS
      simp only [List.map_cons] at hsub
      cases hsub with
      | cons₂ _ hsub2 =>
        -- heads agree: k = a
        have hlk : alookup ((a, v) :: srest) a = some v := by
          simp [alookup]
        have hvne : v ≠ [] := hne (a, v) (List.mem_cons_self _ _)
        have hvpos : v.length > 0 := by
          cases v with
          | nil => exact absurd rfl hvne
          | cons x xs => simp
        simp only [storagesOf, hlk, if_pos hvpos]
        have hdrop : storagesOf ((a, v) :: srest) rest = storagesOf srest rest := by
          apply storagesOf_drop_head
          intro q hq
          have : a < q.1 := hpairA2.1 q hq
          omega
        rw [hdrop, ih srest hsub2 hpairA2.2 hpairS2.2
          (fun q hq => hne q (List.mem_cons_of_mem _ hq))]
      | cons _ hsub2 =>
        -- the storage head key is strictly beyond `a`
        have hmemK : k ∈ rest.map Prod.fst := hsub2.subset (List.mem_cons_self _ _)
        obtain ⟨q0, hq0, hq0k⟩ := List.mem_map.mp hmemK
        have hak : a < k := hq0k ▸ hpairA2.1 q0 hq0
        have hnonea : alookup ((k, v) :: srest) a = none := by
          apply alookup_none
          intro q hq
          rcases List.mem_cons.mp hq with hq | hq
          · subst hq
            simp only [ne_eq]
            omega
          · have : k < q.1 := hpairS2.1 q hq
            simp only [ne_eq]
            omega
        simp only [storagesOf, hnonea]
        exact ih ((k, v) :: srest) (by simpa using hsub2)
          hpairA2.2 hpairS hne

theorem storIndexOf_length_dvd (storages : List (Nat × List (Nat × Bytes)))
    (accs : List (Nat × Bytes)) (sdOff : Nat) :
    slotIndexSize ∣ (storIndexOf storages accs sdOff).length := by
  induction accs generalizing sdOff with
  | nil => simp [storIndexOf]
  | cons p rest ih =>
    obtain ⟨a, b⟩ := p
    cases hlk : alookup storages a with
    | none =>
      simp only [storIndexOf, hlk]
      exact ih sdOff
    | some slots =>
      simp only [storIndexOf, hlk, List.length_append, slotsIndexBytes_length]
      exact Nat.dvd_add ⟨slots.length, rfl⟩ (ih _)

end GethState

namespace GethState

instance slotsWF_decidable (slots : List (Nat × Bytes)) :
    Decidable (slotsWF slots) := by
  unfold slotsWF
  infer_instance

instance historyWF_decidable (h : History) : Decidable h.WF := by
  unfold History.WF
  infer_instance

instance historySizeOK_decidable (h : History) : Decidable h.SizeOK := by
  unfold History.SizeOK
  infer_instance

/-- C1 (amended): decoding the four byte streams produced by encoding a
history yields the history back — its accounts map, its storages map and
the sorted account and slot lists (the association order) — provided the
history is non-empty and well formed (strictly sorted keys, storage keys
among the mutated accounts, pre-image blobs at most 255 bytes) and its
encoded streams fit the decoder's `uint32` cursors. The claim as stated
fails for the empty history, whose encoding the decoder rejects. -/
theorem C1_history_roundtrip (h : History) (hne : h.accounts ≠ [])
    (hwf : h.WF) (hsz : h.SizeOK) :
    History.decode h.encode.1 h.encode.2.1 h.encode.2.2.1 h.encode.2.2.2 =
      .ok h := by
  obtain ⟨hpairA, hmemA, hpairS, hsub, hwfS⟩ := hwf
  obtain ⟨hszAD, hszSD, hszSI⟩ := hsz
  rw [History.encode_eq] at hszAD hszSD hszSI ⊢
  dsimp only at hszAD hszSD hszSI ⊢
  have hnlen : 1 ≤ h.accounts.length := by
    cases hacc : h.accounts with
    | nil => exact absurd hacc hne
    | cons x xs => simp
  have haiLen : (accIndexStreamOf h.storages h.accounts 0 0).length =
      accountIndexSize * h.accounts.length := accIndexStreamOf_length _ _ _ _
  obtain ⟨m, hm⟩ := storIndexOf_length_dvd h.storages h.accounts 0
  have hc1 : ¬ ((accIndexStreamOf h.storages h.accounts 0 0).length %
      accountIndexSize ≠ 0 ∨
      (accIndexStreamOf h.storages h.accounts 0 0).length = 0) := by
    rw [haiLen]
    simp only [accountIndexSize]
    omega
  have hc2 : ¬ ((storIndexOf h.storages h.accounts 0).length %
      slotIndexSize ≠ 0) := by
    rw [hm]
    simp only [slotIndexSize]
    omega
  have hverify : decoder.verify ⟨accData h.accounts,
      storDataOf h.storages h.accounts,
      accIndexStreamOf h.storages h.accounts 0 0,
      storIndexOf h.storages h.accounts 0⟩ = .ok () := by
    simp only [decoder.verify]
    rw [if_neg hc1, if_neg hc2]
  have hloop := decodeLoop_encoded
    ⟨accData h.accounts, storDataOf h.storages h.accounts,
      accIndexStreamOf h.storages h.accounts 0 0,
      storIndexOf h.storages h.accounts 0⟩
    h.storages
    (fun addr slots hlk => hwfS (addr, slots) (alookup_mem hlk))
    h.accounts 0 0 ⟨none, 0, 0, 0⟩
    (by dsimp only; simp)
    (by dsimp only; rw [haiLen]; ring)
    (by dsimp only; simp)
    (by dsimp only; simp)
    (by dsimp only; simp)
    (by dsimp only; simp)
    (by dsimp only; simp)
    (by dsimp only; simp)
    (by dsimp only; simp)
    hszAD hszSI hszSD hpairA hmemA
    (fun p _ => trivial)
  have hcount : (accIndexStreamOf h.storages h.accounts 0 0).length /
      accountIndexSize = h.accounts.length := by
    rw [haiLen]
    exact Nat.mul_div_cancel_left _ (by norm_num [accountIndexSize])
  simp only [History.decode]
  rw [hverify]
  dsimp only
  rw [hcount, hloop]
  rw [storagesOf_eq h.storages h.accounts hsub hpairA hpairS
    (fun p hp => (hwfS p hp).1)]

/-- C1 counterexample: the empty history (no mutated accounts, no
storage) does not round-trip — encoding it yields four empty streams and
the decoder rejects an empty account index stream, so
`decode(encode(h)) = h` fails for `h = ∅`. -/
theorem C1_counterexample :
    History.decode (History.encode ⟨[], []⟩).1 (History.encode ⟨[], []⟩).2.1
        (History.encode ⟨[], []⟩).2.2.1 (History.encode ⟨[], []⟩).2.2.2 =
      .error .invalidAccountIndexLen ∧
    (Except.error HErr.invalidAccountIndexLen : Except HErr History) ≠
      .ok ⟨[], []⟩ := by
  constructor
  · rfl
  · intro hcontra
    cases hcontra

/-- C1 witness: a concrete two-account history with storage slots
round-trips through the codec. -/
theorem C1_witness :
    History.decode
        (History.encode ⟨[(5, [9, 9]), (7, [])],
          [(5, [(1, [3]), (4, [])]), (7, [(2, [8, 8])])]⟩).1
        (History.encode ⟨[(5, [9, 9]), (7, [])],
          [(5, [(1, [3]), (4, [])]), (7, [(2, [8, 8])])]⟩).2.1
        (History.encode ⟨[(5, [9, 9]), (7, [])],
          [(5, [(1, [3]), (4, [])]), (7, [(2, [8, 8])])]⟩).2.2.1
        (History.encode ⟨[(5, [9, 9]), (7, [])],
          [(5, [(1, [3]), (4, [])]), (7, [(2, [8, 8])])]⟩).2.2.2 =
      .ok ⟨[(5, [9, 9]), (7, [])],
        [(5, [(1, [3]), (4, [])]), (7, [(2, [8, 8])])]⟩ :=
  C1_history_roundtrip
    ⟨[(5, [9, 9]), (7, [])], [(5, [(1, [3]), (4, [])]), (7, [(2, [8, 8])])]⟩
    (by decide)
    (by
      refine ⟨?_, ?_, ?_, ?_, ?_⟩ <;> decide)
    (by decide)

end GethState

namespace GethState

/-- A successful decode loop returns exactly as many accounts as its
count argument. -/
theorem decodeLoop_ok_length (r : decoderStreams) :
    ∀ (count pos : Nat) (s : decoderState) (accs : List (Nat × Bytes))
      (stors : List (Nat × List (Nat × Bytes))),
      decodeLoop r count pos s = .ok (accs, stors) → accs.length = count := by
  intro count
  induction count with
  | zero =>
    intro pos s accs stors hok
    simp only [decodeLoop] at hok
    cases hok
    rfl
  | succ c ih =>
    intro pos s accs stors hok
    simp only [decodeLoop] at hok
    cases hra : decoder.readAccount r s pos with
    | error e =>
      simp only [hra] at hok
      cases hok
    | ok res =>
      obtain ⟨accIndex, accData, s1⟩ := res
      simp only [hra] at hok
      cases hrs : decoder.readStorage r s1 accIndex with
      | error e =>
        simp only [hrs] at hok
        cases hok
      | ok res2 =>
        obtain ⟨slots, s2⟩ := res2
        simp only [hrs] at hok
        cases hrec : decodeLoop r c (pos + 1) s2 with
        | error e =>
          simp only [hrec] at hok
          cases hok
        | ok res3 =>
          obtain ⟨accs2, stors2⟩ := res3
          simp only [hrec, Except.ok.injEq, Prod.mk.injEq] at hok
          obtain ⟨hacc, hst⟩ := hok
          rw [← hacc]
          simp [ih _ _ _ _ hrec]

/-- C10: a history record with an empty account index stream is always
rejected: whatever the two data streams and the storage index stream
hold, decoding with zero account indexes fails, every successfully
decoded history therefore carries at least one mutated account, and
empty account data together with an empty storage index stream is
accepted (for example a single account whose pre-image is empty). -/
theorem C10_empty_account_index (accountData storageData storageIndexes : Bytes) :
    History.decode accountData storageData [] storageIndexes =
      .error .invalidAccountIndexLen ∧
    (∀ (ad sd ai si : Bytes) (h : History),
        History.decode ad sd ai si = .ok h → h.accounts ≠ []) ∧
    History.decode [] [] (accountIndex.encode ⟨3, 0, 0, 0, 0⟩) [] =
      .ok ⟨[(3, [])], []⟩ := by
  refine ⟨?_, ?_, ?_⟩
  · simp [History.decode, decoder.verify]
  · intro ad sd ai si h hok
    simp only [History.decode] at hok
    cases hver : decoder.verify ⟨ad, sd, ai, si⟩ with
    | error e => rw [hver] at hok; cases hok
    | ok u =>
      rw [hver] at hok
      have hai : ai.length % accountIndexSize = 0 ∧ ai.length ≠ 0 := by
        simp only [decoder.verify] at hver
        by_cases hc : ai.length % accountIndexSize ≠ 0 ∨ ai.length = 0
        · rw [if_pos hc] at hver; cases hver
        · push_neg at hc
          exact hc
      cases hloop : decodeLoop ⟨ad, sd, ai, si⟩
          (ai.length / accountIndexSize) 0 ⟨none, 0, 0, 0⟩ with
      | error e => rw [hloop] at hok; cases hok
      | ok res =>
        obtain ⟨accs, stors⟩ := res
        rw [hloop] at hok
        cases hok
        have hlen := decodeLoop_ok_length _ _ _ _ _ _ hloop
        have hcount : 1 ≤ ai.length / accountIndexSize := by
          obtain ⟨h1, h2⟩ := hai
          simp only [accountIndexSize] at h1 ⊢
          omega
        intro hcontra
        have haccs : accs = [] := hcontra
        rw [haccs] at hlen
        simp at hlen
        omega
  · rfl

/-- C10 witness: the universal rejection applied at empty streams, plus
the non-emptiness consequence applied to the concrete accepted record. -/
theorem C10_witness :
    History.decode [] [] [] [] = .error .invalidAccountIndexLen ∧
    ([(3, [])] : List (Nat × Bytes)) ≠ [] := by
  refine ⟨(C10_empty_account_index [] [] []).1, ?_⟩
  have h2 := (C10_empty_account_index [] [] []).2.1 [] []
    (accountIndex.encode ⟨3, 0, 0, 0, 0⟩) [] ⟨[(3, [])], []⟩
    (C10_empty_account_index [] [] []).2.2
  exact h2

end GethState

namespace GethState

/-- Sum of `f` over `0, …, k-1`. -/
def rangeSum (f : Nat → Nat) (k : Nat) : Nat := ((List.range k).map f).sum

theorem rangeSum_zero (f : Nat → Nat) : rangeSum f 0 = 0 := rfl

theorem rangeSum_succ (f : Nat → Nat) (k : Nat) :
    rangeSum f (k + 1) = rangeSum f k + f k := by
  simp [rangeSum, List.range_succ]

theorem rangeSum_mono (f : Nat → Nat) {a b : Nat} (h : a ≤ b) :
    rangeSum f a ≤ rangeSum f b := by
  induction h with
  | refl => exact le_refl _
  | step _ ih => rw [rangeSum_succ]; omega

/-- The account index decoded at position `i`. -/
def aidx (r : decoderStreams) (i : Nat) : accountIndex :=
  accountIndex.decode
    ((r.accountIndexes.drop (i * accountIndexSize)).take accountIndexSize)

/-- The slot index decoded at position `k`. -/
def sidx (r : decoderStreams) (k : Nat) : slotIndex :=
  slotIndex.decode
    ((r.storageIndexes.drop (k * slotIndexSize)).take slotIndexSize)

/-- Pre-image length announced by the account index at `i`. -/
def aLen (r : decoderStreams) (i : Nat) : Nat := (aidx r i).length

/-- Storage slot count announced by the account index at `i`. -/
def sCnt (r : decoderStreams) (i : Nat) : Nat := (aidx r i).storageSlots

/-- Slot pre-image length announced by the slot index at `k`. -/
def sLen (r : decoderStreams) (k : Nat) : Nat := (sidx r k).length

/-- Number of account index entries. -/
def nAcc (r : decoderStreams) : Nat :=
  r.accountIndexes.length / accountIndexSize

theorem isByteStream_take {bs : Bytes} (h : IsByteStream bs) (n : Nat) :
    IsByteStream (bs.take n) :=
  fun b hb => h b (List.mem_of_mem_take hb)

theorem isByteStream_drop {bs : Bytes} (h : IsByteStream bs) (n : Nat) :
    IsByteStream (bs.drop n) :=
  fun b hb => h b (List.mem_of_mem_drop hb)

theorem headD_lt {bs : Bytes} (h : IsByteStream bs) : bs.headD 0 < 256 := by
  cases bs with
  | nil => simp
  | cons b rest => exact h b (List.mem_cons_self _ _)

theorem leNat_lt_pow {bs : Bytes} (h : IsByteStream bs) :
    leNat bs < 256 ^ bs.length := by
  induction bs with
  | nil => simp [leNat]
  | cons b rest ih =>
    have hb : b < 256 := h b (List.mem_cons_self _ _)
    have hr := ih (fun x hx => h x (List.mem_cons_of_mem _ hx))
    simp only [leNat, List.length_cons, pow_succ]
    calc b + 256 * leNat rest < 256 + 256 * leNat rest := by omega
      _ = 256 * (leNat rest + 1) := by ring
      _ ≤ 256 * 256 ^ rest.length := by
          have : leNat rest + 1 ≤ 256 ^ rest.length := hr
          exact Nat.mul_le_mul_left _ this
      _ = 256 ^ rest.length * 256 := by ring

theorem leNat_take4_lt {bs : Bytes} (h : IsByteStream bs) :
    leNat (bs.take 4) < U32 := by
  have h1 := leNat_lt_pow (isByteStream_take h 4)
  have h2 : (bs.take 4).length ≤ 4 := by
    simp [List.length_take]
  calc leNat (bs.take 4) < 256 ^ (bs.take 4).length := h1
    _ ≤ 256 ^ 4 := Nat.pow_le_pow_right (by norm_num) h2
    _ = U32 := by norm_num [U32]

theorem aidx_length_lt (r : decoderStreams)
    (h : IsByteStream r.accountIndexes) (i : Nat) : aLen r i < 256 := by
  exact headD_lt (fun b hb =>
    h b (List.mem_of_mem_drop (List.mem_of_mem_take (List.mem_of_mem_drop hb))))

theorem aidx_storageOffset_lt (r : decoderStreams)
    (h : IsByteStream r.accountIndexes) (i : Nat) :
    (aidx r i).storageOffset < U32 := by
  exact leNat_take4_lt (isByteStream_drop (isByteStream_take
    (isByteStream_drop h _) _) _)

theorem aidx_storageSlots_lt (r : decoderStreams)
    (h : IsByteStream r.accountIndexes) (i : Nat) : sCnt r i < U32 := by
  exact leNat_take4_lt (isByteStream_drop (isByteStream_take
    (isByteStream_drop h _) _) _)

theorem aidx_offset_lt (r : decoderStreams)
    (h : IsByteStream r.accountIndexes) (i : Nat) :
    (aidx r i).offset < U32 := by
  exact leNat_take4_lt (isByteStream_drop (isByteStream_take
    (isByteStream_drop h _) _) _)

theorem sidx_length_lt (r : decoderStreams)
    (h : IsByteStream r.storageIndexes) (k : Nat) : sLen r k < 256 := by
  exact headD_lt (fun b hb =>
    h b (List.mem_of_mem_drop (List.mem_of_mem_take (List.mem_of_mem_drop hb))))

theorem sidx_offset_lt (r : decoderStreams)
    (h : IsByteStream r.storageIndexes) (k : Nat) :
    (sidx r k).offset < U32 := by
  exact leNat_take4_lt (isByteStream_drop (isByteStream_take
    (isByteStream_drop h _) _) _)

/-- The structural invariants that characterize the byte streams the
history decoder accepts: aligned non-empty account index stream, aligned
storage index stream, strictly ascending addresses, gap-free account
data offsets fitting the account data stream, gap-free storage slot
counters fitting the storage index stream, gap-free slot data offsets
fitting the storage data stream, and per-account strictly ascending
non-zero slot hashes. -/
structure ValidStreams (r : decoderStreams) : Prop where
  aiAligned : r.accountIndexes.length % accountIndexSize = 0
  aiNonempty : r.accountIndexes ≠ []
  siAligned : r.storageIndexes.length % slotIndexSize = 0
  addrAscending : ∀ i, i + 1 < nAcc r →
    (aidx r i).address < (aidx r (i + 1)).address
  accGapFree : ∀ i < nAcc r, (aidx r i).offset = rangeSum (aLen r) i
  accDataFits : rangeSum (aLen r) (nAcc r) ≤ r.accountData.length
  storOffsetGapFree : ∀ i < nAcc r, 0 < sCnt r i →
    (aidx r i).storageOffset = rangeSum (sCnt r) i
  storIndexFits :
    slotIndexSize * rangeSum (sCnt r) (nAcc r) ≤ r.storageIndexes.length
  slotGapFree : ∀ k < rangeSum (sCnt r) (nAcc r),
    (sidx r k).offset = rangeSum (sLen r) k
  storDataFits :
    rangeSum (sLen r) (rangeSum (sCnt r) (nAcc r)) ≤ r.storageData.length
  slotHashPos : ∀ i < nAcc r, 0 < sCnt r i →
    0 < (sidx r (rangeSum (sCnt r) i)).hash
  slotHashAscending : ∀ i < nAcc r, ∀ j, j + 1 < sCnt r i →
    (sidx r (rangeSum (sCnt r) i + j)).hash <
      (sidx r (rangeSum (sCnt r) i + j + 1)).hash

end GethState

namespace GethState

/-- Under the structural invariants, the slot loop of the decoder
accepts the announced range of slot indexes. -/
theorem readSlots_valid (r : decoderStreams)
    (hbsi : IsByteStream r.storageIndexes)
    (hsiL : r.storageIndexes.length < 2 ^ 31)
    (hsdL : r.storageData.length < 2 ^ 31)
    (S cnt : Nat)
    (hbound : slotIndexSize * (S + cnt) ≤ r.storageIndexes.length)
    (hdata : rangeSum (sLen r) (S + cnt) ≤ r.storageData.length)
    (hoff : ∀ k, S ≤ k → k < S + cnt → (sidx r k).offset = rangeSum (sLen r) k)
    (hasc : ∀ j, j + 1 < cnt →
      (sidx r (S + j)).hash < (sidx r (S + j + 1)).hash) :
    ∀ (c j lastHash : Nat) (s : decoderState),
      j + c = cnt →
      s.lastSlotIndexRead = slotIndexSize * (S + j) →
      s.lastSlotDataRead = rangeSum (sLen r) (S + j) →
      (0 < c → lastHash < (sidx r (S + j)).hash) →
      ∃ out, decoder.readSlots r S c j lastHash s =
        .ok (out,
          { s with lastSlotIndexRead := slotIndexSize * (S + cnt),
                   lastSlotDataRead := rangeSum (sLen r) (S + cnt) }) := by
  intro c
  induction c with
  | zero =>
    intro j lastHash s hj hlsir hlsdr _
    have hcnt : j = cnt := by omega
    subst hcnt
    refine ⟨[], ?_⟩
    simp only [decoder.readSlots]
    rw [← hlsir, ← hlsdr]
  | succ c ih =>
    intro j lastHash s hj hlsir hlsdr hlast
    have hjcnt : j < cnt := by omega
    have hU : (2 : Nat) ^ 31 < U32 := by norm_num [U32]
    have hstart : ((S + j) * slotIndexSize) % U32 =
        s.lastSlotIndexRead := by
      have h2 : slotIndexSize * (S + j) ≤ r.storageIndexes.length := by
        have := Nat.mul_le_mul_left slotIndexSize (by omega : S + j ≤ S + cnt)
        omega
      rw [show (S + j) * slotIndexSize = slotIndexSize * (S + j) by ring, hlsir]
      exact Nat.mod_eq_of_lt (by omega)
    have hendPos : ((S + (j + 1)) * slotIndexSize) % U32 =
        slotIndexSize * (S + (j + 1)) := by
      have h2 : slotIndexSize * (S + (j + 1)) ≤ r.storageIndexes.length := by
        have := Nat.mul_le_mul_left slotIndexSize
          (by omega : S + (j + 1) ≤ S + cnt)
        omega
      rw [show (S + (j + 1)) * slotIndexSize =
        slotIndexSize * (S + (j + 1)) by ring]
      exact Nat.mod_eq_of_lt (by omega)
    have hg1 : ¬ (((S + j) * slotIndexSize) % U32 ≠ s.lastSlotIndexRead) := by
      rw [hstart]
      simp
    have hg2 : ¬ (r.storageIndexes.length % U32 <
        ((S + (j + 1)) * slotIndexSize) % U32) := by
      rw [hendPos, Nat.mod_eq_of_lt (by omega)]
      have := Nat.mul_le_mul_left slotIndexSize
        (by omega : S + (j + 1) ≤ S + cnt)
      omega
    have hslice : (r.storageIndexes.drop
        (((S + j) * slotIndexSize) % U32)).take slotIndexSize =
        (r.storageIndexes.drop ((S + j) * slotIndexSize)).take slotIndexSize := by
      rw [hstart, hlsir]
      rw [show slotIndexSize * (S + j) = (S + j) * slotIndexSize by ring]
    have hidx : slotIndex.decode ((r.storageIndexes.drop
        (((S + j) * slotIndexSize) % U32)).take slotIndexSize) = sidx r (S + j) := by
      rw [hslice]
      rfl
    have hg3 : ¬ (lastHash ≥ (sidx r (S + j)).hash) := by
      have := hlast (by omega)
      omega
    have hoffj : (sidx r (S + j)).offset = rangeSum (sLen r) (S + j) :=
      hoff (S + j) (by omega) (by omega)
    have hg4 : ¬ ((sidx r (S + j)).offset ≠ s.lastSlotDataRead) := by
      rw [hoffj, hlsdr]
      simp
    have hlenj : sLen r (S + j) < 256 := sidx_length_lt r hbsi (S + j)
    have hsum1 : rangeSum (sLen r) (S + j + 1) ≤ r.storageData.length := by
      have := rangeSum_mono (sLen r) (by omega : S + j + 1 ≤ S + cnt)
      omega
    have hsEnd : ((sidx r (S + j)).offset + (sidx r (S + j)).length) % U32 =
        rangeSum (sLen r) (S + j + 1) := by
      rw [hoffj]
      have hss : rangeSum (sLen r) (S + j) + (sidx r (S + j)).length =
          rangeSum (sLen r) (S + j + 1) := (rangeSum_succ (sLen r) (S + j)).symm
      rw [hss]
      exact Nat.mod_eq_of_lt (by omega)
    have hg5 : ¬ (r.storageData.length % U32 <
        rangeSum (sLen r) (S + j + 1)) := by
      rw [Nat.mod_eq_of_lt (by omega)]
      omega
    obtain ⟨out2, hout2⟩ := ih (j + 1) (sidx r (S + j)).hash
      { s with lastSlotIndexRead := slotIndexSize * (S + (j + 1)),
               lastSlotDataRead := rangeSum (sLen r) (S + (j + 1)) }
      (by omega) rfl rfl
      (by
        intro hc
        exact hasc j (by omega))
    refine ⟨((sidx r (S + j)).hash,
      (r.storageData.drop s.lastSlotDataRead).take
        (rangeSum (sLen r) (S + j + 1) - s.lastSlotDataRead)) :: out2, ?_⟩
    simp only [decoder.readSlots]
    rw [if_neg hg1, if_neg hg2, hidx]
    rw [if_neg hg3, if_neg hg4, hsEnd, if_neg hg5]
    rw [hendPos]
    rw [show S + (j + 1) = S + j + 1 from rfl] at hout2 ⊢
    rw [hout2]

end GethState

namespace GethState

/-- Under the structural invariants, the decode loop accepts from any
aligned cursor position. -/
theorem decodeLoop_valid (r : decoderStreams) (hv : ValidStreams r)
    (hbai : IsByteStream r.accountIndexes)
    (hbsi : IsByteStream r.storageIndexes)
    (hadL : r.accountData.length < 2 ^ 31)
    (hsiL : r.storageIndexes.length < 2 ^ 31)
    (hsdL : r.storageData.length < 2 ^ 31) :
    ∀ (c i : Nat) (s : decoderState),
      i + c = nAcc r →
      s.lastAccountRead = rangeSum (aLen r) i →
      s.lastSlotIndexRead = slotIndexSize * rangeSum (sCnt r) i →
      s.lastSlotDataRead = rangeSum (sLen r) (rangeSum (sCnt r) i) →
      (0 < c → optAddrLt s.lastAccount (aidx r i).address) →
      ∃ out, decodeLoop r c i s = .ok out := by
  have hdvd : accountIndexSize ∣ r.accountIndexes.length :=
    Nat.dvd_of_mod_eq_zero hv.aiAligned
  have hlenAI : r.accountIndexes.length = accountIndexSize * nAcc r := by
    have h1 := Nat.div_mul_cancel hdvd
    rw [nAcc]
    simp only [accountIndexSize] at h1 ⊢
    omega
  intro c
  induction c with
  | zero =>
    intro i s _ _ _ _ _
    exact ⟨([], []), rfl⟩
  | succ c ih =>
    intro i s hi hlar hlsir hlsdr hprev
    have hin : i < nAcc r := by omega
    have hU : (2 : Nat) ^ 31 < U32 := by norm_num [U32]
    have hg1 : ¬ ((i + 1) * accountIndexSize > r.accountIndexes.length) := by
      rw [hlenAI]
      simp only [accountIndexSize]
      omega
    have hidx : accountIndex.decode ((r.accountIndexes.drop
        (i * accountIndexSize)).take accountIndexSize) = aidx r i := rfl
    have hg2 : notInOrder s.lastAccount (aidx r i).address = false :=
      notInOrder_false (hprev (by omega))
    have hoffi : (aidx r i).offset = rangeSum (aLen r) i :=
      hv.accGapFree i hin
    have hg3 : ¬ ((aidx r i).offset ≠ s.lastAccountRead) := by
      rw [hoffi, hlar]
      simp
    have hsum1 : rangeSum (aLen r) (i + 1) ≤ r.accountData.length := by
      have := rangeSum_mono (aLen r) (by omega : i + 1 ≤ nAcc r)
      have := hv.accDataFits
      omega
    have hlasteq : ((aidx r i).offset + (aidx r i).length) % U32 =
        rangeSum (aLen r) (i + 1) := by
      rw [hoffi]
      have hss : rangeSum (aLen r) i + (aidx r i).length =
          rangeSum (aLen r) (i + 1) := (rangeSum_succ (aLen r) i).symm
      rw [hss]
      exact Nat.mod_eq_of_lt (by omega)
    have hg4 : ¬ (r.accountData.length % U32 <
        rangeSum (aLen r) (i + 1)) := by
      rw [Nat.mod_eq_of_lt (by omega)]
      omega
    have hra : decoder.readAccount r s i =
        .ok (aidx r i,
          (r.accountData.drop (aidx r i).offset).take
            (rangeSum (aLen r) (i + 1) - (aidx r i).offset),
          { s with lastAccount := some (aidx r i).address,
                   lastAccountRead := rangeSum (aLen r) (i + 1) }) := by
      simp only [decoder.readAccount]
      rw [if_neg hg1, hidx]
      rw [if_neg (by rw [hg2]; simp), if_neg hg3, hlasteq, if_neg hg4]
    have hS1 : slotIndexSize * rangeSum (sCnt r) (i + 1) ≤
        r.storageIndexes.length := by
      have h1 := rangeSum_mono (sCnt r) (by omega : i + 1 ≤ nAcc r)
      have h2 := hv.storIndexFits
      have := Nat.mul_le_mul_left slotIndexSize h1
      omega
    have hS2 : rangeSum (sLen r) (rangeSum (sCnt r) (i + 1)) ≤
        r.storageData.length := by
      have h1 := rangeSum_mono (sLen r) (rangeSum_mono (sCnt r)
        (by omega : i + 1 ≤ nAcc r))
      have h2 := hv.storDataFits
      omega
    have hcntEq : (aidx r i).storageSlots = sCnt r i := rfl
    by_cases hcnt : 0 < sCnt r i
    · have hK : (aidx r i).storageOffset = rangeSum (sCnt r) i :=
        hv.storOffsetGapFree i hin hcnt
      obtain ⟨sout, hsout⟩ := readSlots_valid r hbsi hsiL hsdL
        (rangeSum (sCnt r) i) (sCnt r i)
        (by
          have he : rangeSum (sCnt r) i + sCnt r i = rangeSum (sCnt r) (i + 1) :=
            (rangeSum_succ (sCnt r) i).symm
          rw [he]
          exact hS1)
        (by
          have he : rangeSum (sCnt r) i + sCnt r i = rangeSum (sCnt r) (i + 1) :=
            (rangeSum_succ (sCnt r) i).symm
          rw [he]
          exact hS2)
        (fun k hk1 hk2 => hv.slotGapFree k (by
          have h1 : rangeSum (sCnt r) i + sCnt r i = rangeSum (sCnt r) (i + 1) :=
            (rangeSum_succ (sCnt r) i).symm
          have h2 := rangeSum_mono (sCnt r) (by omega : i + 1 ≤ nAcc r)
          omega))
        (fun j hj => hv.slotHashAscending i hin j hj)
        (sCnt r i) 0 0
        { s with lastAccount := some (aidx r i).address,
                 lastAccountRead := rangeSum (aLen r) (i + 1) }
        (by omega)
        (by dsimp only; rw [hlsir, Nat.add_zero])
        (by dsimp only; rw [hlsdr, Nat.add_zero])
        (fun _ => hv.slotHashPos i hin hcnt)
      obtain ⟨out, hout⟩ := ih (i + 1)
        { s with lastAccount := some (aidx r i).address,
                 lastAccountRead := rangeSum (aLen r) (i + 1),
                 lastSlotIndexRead :=
                   slotIndexSize * (rangeSum (sCnt r) i + sCnt r i),
                 lastSlotDataRead :=
                   rangeSum (sLen r) (rangeSum (sCnt r) i + sCnt r i) }
        (by omega) rfl
        (by
          dsimp only
          rw [rangeSum_succ])
        (by
          dsimp only
          rw [rangeSum_succ])
        (by
          intro hc
          have := hv.addrAscending i (by omega)
          simpa [optAddrLt] using this)
      obtain ⟨accs2, stors2⟩ := out
      have hfinal : decodeLoop r (c + 1) i s = .ok
          (((aidx r i).address,
              (r.accountData.drop (aidx r i).offset).take
                (rangeSum (aLen r) (i + 1) - (aidx r i).offset)) :: accs2,
            if sout.length > 0 then ((aidx r i).address, sout) :: stors2
            else stors2) := by
        simp only [decodeLoop, hra]
        simp only [decoder.readStorage]
        rw [hcntEq, hK, hsout]
        dsimp only
        rw [hout]
      exact ⟨_, hfinal⟩
    · have hcnt0 : sCnt r i = 0 := by omega
      obtain ⟨out, hout⟩ := ih (i + 1)
        { s with lastAccount := some (aidx r i).address,
                 lastAccountRead := rangeSum (aLen r) (i + 1) }
        (by omega) rfl
        (by
          dsimp only
          rw [rangeSum_succ, hcnt0, hlsir, Nat.add_zero])
        (by
          dsimp only
          rw [rangeSum_succ, hcnt0, hlsdr, Nat.add_zero])
        (by
          intro hc
          have := hv.addrAscending i (by omega)
          simpa [optAddrLt] using this)
      obtain ⟨accs2, stors2⟩ := out
      have hfinal : decodeLoop r (c + 1) i s = .ok
          (((aidx r i).address,
              (r.accountData.drop (aidx r i).offset).take
                (rangeSum (aLen r) (i + 1) - (aidx r i).offset)) :: accs2,
            stors2) := by
        simp only [decodeLoop, hra]
        simp only [decoder.readStorage]
        rw [hcntEq, hcnt0]
        simp only [decoder.readSlots]
        rw [hout]
        simp
      exact ⟨_, hfinal⟩

end GethState

namespace GethState

/-- Multiplication by the slot index size is injective modulo `2^32`
(37 is odd, hence coprime to it). -/
theorem cancel_slotIndexSize {a b : Nat} (ha : a < U32) (hb : slotIndexSize * b < U32)
    (h : (a * slotIndexSize) % U32 = slotIndexSize * b) : a = b := by
  have hbU : b < U32 := by
    have : b ≤ slotIndexSize * b := Nat.le_mul_of_pos_left b (by norm_num [slotIndexSize])
    omega
  have hmod : (slotIndexSize * a) % U32 = (slotIndexSize * b) % U32 := by
    rw [Nat.mod_eq_of_lt hb, ← h, Nat.mul_comm]
  have hme : Nat.ModEq U32 (slotIndexSize * a) (slotIndexSize * b) := hmod
  have hcop : Nat.Coprime slotIndexSize U32 := by
    simp only [slotIndexSize, U32]
    norm_num [Nat.Coprime]
  have := hme.cancel_left_of_coprime (by
    simpa [Nat.Coprime] using hcop)
  have h2 : a % U32 = b % U32 := this
  rw [Nat.mod_eq_of_lt ha, Nat.mod_eq_of_lt hbU] at h2
  exact h2

/-- The first iteration of a successful non-empty slot read passed the
cursor alignment guard. -/
theorem readSlots_ok_first (r : decoderStreams) (K c j lastHash : Nat)
    (s : decoderState) (out : List (Nat × Bytes)) (s2 : decoderState)
    (hok : decoder.readSlots r K (c + 1) j lastHash s = .ok (out, s2)) :
    ((K + j) * slotIndexSize) % U32 = s.lastSlotIndexRead := by
  simp only [decoder.readSlots] at hok
  split at hok
  · cases hok
  · next hcond =>
    push_neg at hcond
    exact hcond

/-- Everything a successful `readAccount` guarantees. -/
theorem readAccount_ok_inv (r : decoderStreams) (s : decoderState) (pos : Nat)
    (i1 : accountIndex) (data : Bytes) (s1 : decoderState)
    (hok : decoder.readAccount r s pos = .ok (i1, data, s1)) :
    i1 = aidx r pos ∧
    notInOrder s.lastAccount (aidx r pos).address = false ∧
    (aidx r pos).offset = s.lastAccountRead ∧
    ¬ (r.accountData.length % U32 <
        ((aidx r pos).offset + (aidx r pos).length) % U32) ∧
    s1 = { s with lastAccount := some (aidx r pos).address,
                  lastAccountRead :=
                    ((aidx r pos).offset + (aidx r pos).length) % U32 } := by
  simp only [decoder.readAccount] at hok
  rw [show accountIndex.decode ((r.accountIndexes.drop
    (pos * accountIndexSize)).take accountIndexSize) = aidx r pos from rfl] at hok
  split at hok
  · cases hok
  · split at hok
    · cases hok
    · next hord =>
      split at hok
      · cases hok
      · next hgap =>
        split at hok
        · cases hok
        · next hbound =>
          push_neg at hgap
          injection hok with hpair
          have h1 : aidx r pos = i1 := congrArg Prod.fst hpair
          have h3 := congrArg
            (fun (p : accountIndex × Bytes × decoderState) => p.2.2) hpair
          dsimp only at h3
          refine ⟨h1.symm, ?_, hgap, hbound, h3.symm⟩
          cases hno : notInOrder s.lastAccount (aidx r pos).address
          · rfl
          · exact absurd hno hord

end GethState

namespace GethState

/-- Everything a successful aligned slot loop guarantees: stream bounds,
gap-free slot data offsets, strictly ascending hashes above the running
hash, and the final cursor position. -/
theorem readSlots_ok_inv (r : decoderStreams)
    (hbsi : IsByteStream r.storageIndexes)
    (hsiL : r.storageIndexes.length < 2 ^ 31)
    (hsdL : r.storageData.length < 2 ^ 31)
    (K : Nat) :
    ∀ (c j lastHash : Nat) (s : decoderState) (out : List (Nat × Bytes))
      (s2 : decoderState),
      decoder.readSlots r K c j lastHash s = .ok (out, s2) →
      s.lastSlotIndexRead = slotIndexSize * (K + j) →
      s.lastSlotDataRead = rangeSum (sLen r) (K + j) →
      s.lastSlotIndexRead ≤ r.storageIndexes.length →
      s.lastSlotDataRead ≤ r.storageData.length →
      slotIndexSize * (K + j + c) ≤ r.storageIndexes.length ∧
      rangeSum (sLen r) (K + j + c) ≤ r.storageData.length ∧
      (∀ k, K + j ≤ k → k < K + j + c →
        (sidx r k).offset = rangeSum (sLen r) k) ∧
      (∀ k, K + j ≤ k → k + 1 < K + j + c →
        (sidx r k).hash < (sidx r (k + 1)).hash) ∧
      (0 < c → lastHash < (sidx r (K + j)).hash) ∧
      s2 = { s with lastSlotIndexRead := slotIndexSize * (K + j + c),
                    lastSlotDataRead := rangeSum (sLen r) (K + j + c) } := by
  intro c
  induction c with
  | zero =>
    intro j lastHash s out s2 hok hlsir hlsdr hsiB hsdB
    simp only [decoder.readSlots] at hok
    injection hok with hpair
    have hs2 : s = s2 := congrArg Prod.snd hpair
    refine ⟨by rw [Nat.add_zero]; omega, by rw [Nat.add_zero]; omega, ?_, ?_, ?_, ?_⟩
    · intro k h1 h2
      omega
    · intro k h1 h2
      omega
    · intro hc
      omega
    · rw [Nat.add_zero, ← hlsir, ← hlsdr]
      exact hs2.symm
  | succ c ih =>
    intro j lastHash s out s2 hok hlsir hlsdr hsiB hsdB
    have hU : (2 : Nat) ^ 31 + 256 < U32 := by norm_num [U32]
    simp only [decoder.readSlots] at hok
    split at hok
    · cases hok
    · next hg1 =>
      split at hok
      · cases hok
      · next hg2 =>
        have hendPos : ((K + (j + 1)) * slotIndexSize) % U32 =
            slotIndexSize * (K + (j + 1)) := by
          rw [show (K + (j + 1)) * slotIndexSize =
            slotIndexSize * (K + (j + 1)) by ring]
          have : slotIndexSize * (K + (j + 1)) =
              s.lastSlotIndexRead + slotIndexSize := by
            rw [hlsir]
            ring
          rw [this]
          exact Nat.mod_eq_of_lt (by simp only [slotIndexSize]; omega)
        have hsiB2 : slotIndexSize * (K + (j + 1)) ≤
            r.storageIndexes.length := by
          rw [hendPos, Nat.mod_eq_of_lt (by omega)] at hg2
          omega
        have hstartEq : ((K + j) * slotIndexSize) % U32 =
            s.lastSlotIndexRead := by
          rw [show (K + j) * slotIndexSize = slotIndexSize * (K + j) by ring,
            ← hlsir]
          exact Nat.mod_eq_of_lt (by omega)
        rw [hstartEq, hlsir] at hok
        rw [show slotIndexSize * (K + j) = (K + j) * slotIndexSize by ring] at hok
        rw [show slotIndex.decode ((r.storageIndexes.drop
          ((K + j) * slotIndexSize)).take slotIndexSize) = sidx r (K + j)
          from rfl] at hok
        split at hok
        · cases hok
        · next hg3 =>
          split at hok
          · cases hok
          · next hg4 =>
            push_neg at hg3 hg4
            have hlenb : sLen r (K + j) < 256 := sidx_length_lt r hbsi (K + j)
            have hsEnd : ((sidx r (K + j)).offset + (sidx r (K + j)).length) %
                U32 = rangeSum (sLen r) (K + j + 1) := by
              rw [hg4, hlsdr]
              rw [show rangeSum (sLen r) (K + j) + (sidx r (K + j)).length =
                rangeSum (sLen r) (K + j + 1)
                from (rangeSum_succ (sLen r) (K + j)).symm]
              exact Nat.mod_eq_of_lt (by
                have hsucc := rangeSum_succ (sLen r) (K + j)
                omega)
            rw [hsEnd] at hok
            split at hok
            · cases hok
            · next hg5 =>
              have hsdB2 : rangeSum (sLen r) (K + j + 1) ≤
                  r.storageData.length := by
                rw [Nat.mod_eq_of_lt (by omega)] at hg5
                omega
              rw [hendPos] at hok
              cases hrec : decoder.readSlots r K c (j + 1)
                  (sidx r (K + j)).hash
                  { s with lastSlotIndexRead := slotIndexSize * (K + (j + 1)),
                           lastSlotDataRead := rangeSum (sLen r) (K + j + 1) }
                  with
              | error e =>
                rw [hrec] at hok
                cases hok
              | ok res =>
                obtain ⟨rest, s2x⟩ := res
                simp only [hrec, Except.ok.injEq, Prod.mk.injEq] at hok
                obtain ⟨hout, hs2⟩ := hok
                have hihres := ih (j + 1) (sidx r (K + j)).hash
                  { s with lastSlotIndexRead := slotIndexSize * (K + (j + 1)),
                           lastSlotDataRead := rangeSum (sLen r) (K + (j + 1)) }
                  rest s2x hrec rfl rfl
                  (by dsimp only; omega)
                  (by
                    dsimp only
                    rw [show rangeSum (sLen r) (K + (j + 1)) =
                      rangeSum (sLen r) (K + j + 1) from rfl]
                    omega)
                obtain ⟨hI1, hI2, hI3, hI4, hI5, hI6⟩ := hihres
                have harith : K + (j + 1) + c = K + j + (c + 1) := by omega
                rw [harith] at hI1 hI2 hI3 hI4 hI6
                refine ⟨hI1, hI2, ?_, ?_, ?_, ?_⟩
                · intro k hk1 hk2
                  by_cases hkj : k = K + j
                  · subst hkj
                    rw [hg4, hlsdr]
                  · exact hI3 k (by omega) hk2
                · intro k hk1 hk2
                  by_cases hkj : k = K + j
                  · subst hkj
                    have := hI5 (by omega)
                    rw [show K + (j + 1) = K + j + 1 from rfl] at this
                    exact this
                  · exact hI4 k (by omega) hk2
                · intro _
                  omega
                · rw [← hs2, hI6]
end GethState

namespace GethState

theorem notInOrder_eq_false {last : Option Nat} {addr : Nat}
    (h : notInOrder last addr = false) : optAddrLt last addr := by
  cases last with
  | none => trivial
  | some a =>
    simp only [notInOrder, decide_eq_false_iff_not] at h
    simp only [optAddrLt]
    omega

/-- Everything a successful aligned decode loop guarantees: the
structural stream invariants over the range of accounts it consumed. -/
theorem decodeLoop_ok_inv (r : decoderStreams)
    (hbai : IsByteStream r.accountIndexes)
    (hbsi : IsByteStream r.storageIndexes)
    (hadL : r.accountData.length < 2 ^ 31)
    (hsiL : r.storageIndexes.length < 2 ^ 31)
    (hsdL : r.storageData.length < 2 ^ 31) :
    ∀ (c i : Nat) (s : decoderState)
      (accs : List (Nat × Bytes)) (stors : List (Nat × List (Nat × Bytes))),
      decodeLoop r c i s = .ok (accs, stors) →
      s.lastAccountRead = rangeSum (aLen r) i →
      s.lastSlotIndexRead = slotIndexSize * rangeSum (sCnt r) i →
      s.lastSlotDataRead = rangeSum (sLen r) (rangeSum (sCnt r) i) →
      s.lastAccountRead ≤ r.accountData.length →
      s.lastSlotIndexRead ≤ r.storageIndexes.length →
      s.lastSlotDataRead ≤ r.storageData.length →
      (0 < c → optAddrLt s.lastAccount (aidx r i).address) ∧
      (∀ k, i ≤ k → k + 1 < i + c →
        (aidx r k).address < (aidx r (k + 1)).address) ∧
      (∀ k, i ≤ k → k < i + c → (aidx r k).offset = rangeSum (aLen r) k) ∧
      rangeSum (aLen r) (i + c) ≤ r.accountData.length ∧
      (∀ k, i ≤ k → k < i + c → 0 < sCnt r k →
        (aidx r k).storageOffset = rangeSum (sCnt r) k) ∧
      slotIndexSize * rangeSum (sCnt r) (i + c) ≤ r.storageIndexes.length ∧
      (∀ k, rangeSum (sCnt r) i ≤ k → k < rangeSum (sCnt r) (i + c) →
        (sidx r k).offset = rangeSum (sLen r) k) ∧
      rangeSum (sLen r) (rangeSum (sCnt r) (i + c)) ≤ r.storageData.length ∧
      (∀ k, i ≤ k → k < i + c → 0 < sCnt r k →
        0 < (sidx r (rangeSum (sCnt r) k)).hash) ∧
      (∀ k, i ≤ k → k < i + c → ∀ j, j + 1 < sCnt r k →
        (sidx r (rangeSum (sCnt r) k + j)).hash <
          (sidx r (rangeSum (sCnt r) k + j + 1)).hash) := by
  intro c
  induction c with
  | zero =>
    intro i s accs stors hok hlar hlsir hlsdr hadB hsiB hsdB
    simp only [Nat.add_zero]
    refine ⟨fun hc => absurd hc (lt_irrefl 0), ?_, ?_, by omega, ?_, by omega,
      ?_, by omega, ?_, ?_⟩
    · intro k h1 h2; omega
    · intro k h1 h2; omega
    · intro k h1 h2; omega
    · intro k h1 h2; omega
    · intro k h1 h2; omega
    · intro k h1 h2; omega
  | succ c ih =>
    intro i s accs stors hok hlar hlsir hlsdr hadB hsiB hsdB
    have hU : (2 : Nat) ^ 31 + 256 < U32 := by norm_num [U32]
    simp only [decodeLoop] at hok
    cases hra : decoder.readAccount r s i with
    | error e =>
      rw [hra] at hok
      cases hok
    | ok res1 =>
      obtain ⟨i1, data1, s1⟩ := res1
      obtain ⟨hi1, hord, hgap, hbound, hs1⟩ :=
        readAccount_ok_inv r s i i1 data1 s1 hra
      subst hi1
      have hoff : (aidx r i).offset = rangeSum (aLen r) i := by
        rw [hgap, hlar]
      have hlast : ((aidx r i).offset + (aidx r i).length) % U32 =
          rangeSum (aLen r) (i + 1) := by
        have hrs := rangeSum_succ (aLen r) i
        have halen : aLen r i < 256 := aidx_length_lt r hbai i
        rw [hoff, show (aidx r i).length = aLen r i from rfl]
        rw [show rangeSum (aLen r) i + aLen r i =
          rangeSum (aLen r) (i + 1) from hrs.symm]
        exact Nat.mod_eq_of_lt (by omega)
      have hadB1 : rangeSum (aLen r) (i + 1) ≤ r.accountData.length := by
        have hmod : r.accountData.length % U32 = r.accountData.length :=
          Nat.mod_eq_of_lt (by omega)
        rw [hlast, hmod] at hbound
        omega
      rw [hlast] at hs1
      subst hs1
      simp only [hra] at hok
      simp only [decoder.readStorage] at hok
      by_cases hcnt : sCnt r i = 0
      · rw [show (aidx r i).storageSlots = sCnt r i from rfl, hcnt] at hok
        simp only [decoder.readSlots] at hok
        cases hrec : decodeLoop r c (i + 1)
            { s with lastAccount := some (aidx r i).address,
                     lastAccountRead := rangeSum (aLen r) (i + 1) } with
        | error e =>
          rw [hrec] at hok
          cases hok
        | ok res2 =>
          obtain ⟨accs2, stors2⟩ := res2
          have he : rangeSum (sCnt r) (i + 1) = rangeSum (sCnt r) i := by
            rw [rangeSum_succ, hcnt, Nat.add_zero]
          obtain ⟨hA1, hA2, hA3, hA4, hA5, hA6, hA7, hA8, hA9, hA10⟩ :=
            ih (i + 1)
              { s with lastAccount := some (aidx r i).address,
                       lastAccountRead := rangeSum (aLen r) (i + 1) }
              accs2 stors2 hrec rfl
              (by dsimp only; rw [he]; exact hlsir)
              (by dsimp only; rw [he]; exact hlsdr)
              hadB1 hsiB hsdB
          have he2 : i + (c + 1) = i + 1 + c := by omega
          rw [he2]
          refine ⟨fun _ => notInOrder_eq_false hord, ?_, ?_, hA4, ?_, hA6,
            ?_, hA8, ?_, ?_⟩
          · intro k hk1 hk2
            by_cases hki : k = i
            · subst hki
              have := hA1 (by omega)
              simpa [optAddrLt] using this
            · exact hA2 k (by omega) hk2
          · intro k hk1 hk2
            by_cases hki : k = i
            · subst hki; exact hoff
            · exact hA3 k (by omega) hk2
          · intro k hk1 hk2 hpos
            by_cases hki : k = i
            · subst hki; omega
            · exact hA5 k (by omega) hk2 hpos
          · intro k hk1 hk2
            exact hA7 k (by omega) hk2
          · intro k hk1 hk2 hpos
            by_cases hki : k = i
            · subst hki; omega
            · exact hA9 k (by omega) hk2 hpos
          · intro k hk1 hk2
            by_cases hki : k = i
            · subst hki
              intro j hj
              omega
            · exact hA10 k (by omega) hk2
      · obtain ⟨cnt, hcnteq⟩ : ∃ m, sCnt r i = m + 1 :=
          ⟨sCnt r i - 1, by omega⟩
        rw [show (aidx r i).storageSlots = sCnt r i from rfl, hcnteq] at hok
        cases hrs : decoder.readSlots r (aidx r i).storageOffset (cnt + 1) 0 0
            { s with lastAccount := some (aidx r i).address,
                     lastAccountRead := rangeSum (aLen r) (i + 1) } with
        | error e =>
          rw [hrs] at hok
          cases hok
        | ok res2 =>
          obtain ⟨slots, s2⟩ := res2
          simp only [hrs] at hok
          have hfirst := readSlots_ok_first r (aidx r i).storageOffset cnt 0 0
            _ slots s2 hrs
          rw [Nat.add_zero] at hfirst
          dsimp only at hfirst
          rw [hlsir] at hfirst
          have hprod : slotIndexSize * rangeSum (sCnt r) i < U32 := by
            rw [← hlsir]
            omega
          have hK : (aidx r i).storageOffset = rangeSum (sCnt r) i :=
            cancel_slotIndexSize (aidx_storageOffset_lt r hbai i) hprod hfirst
          rw [hK] at hrs
          obtain ⟨hS1, hS2, hS3, hS4, hS5, hS6⟩ :=
            readSlots_ok_inv r hbsi hsiL hsdL (rangeSum (sCnt r) i)
              (cnt + 1) 0 0 _ slots s2 hrs
              (by dsimp only; rw [Nat.add_zero]; exact hlsir)
              (by dsimp only; rw [Nat.add_zero]; exact hlsdr)
              hsiB hsdB
          simp only [Nat.add_zero] at hS1 hS2 hS3 hS4 hS5 hS6
          have hKs : rangeSum (sCnt r) i + (cnt + 1) =
              rangeSum (sCnt r) (i + 1) := by
            rw [rangeSum_succ, hcnteq]
          rw [hKs] at hS1 hS2 hS3 hS4 hS6
          cases hrec : decodeLoop r c (i + 1) s2 with
          | error e =>
            rw [hrec] at hok
            cases hok
          | ok res3 =>
            obtain ⟨accs2, stors2⟩ := res3
            obtain ⟨hA1, hA2, hA3, hA4, hA5, hA6, hA7, hA8, hA9, hA10⟩ :=
              ih (i + 1) s2 accs2 stors2 hrec
                (by rw [hS6]) (by rw [hS6]) (by rw [hS6])
                (by rw [hS6]; exact hadB1) (by rw [hS6]; exact hS1)
                (by rw [hS6]; exact hS2)
            have he2 : i + (c + 1) = i + 1 + c := by omega
            rw [he2]
            refine ⟨fun _ => notInOrder_eq_false hord, ?_, ?_, hA4, ?_, hA6,
              ?_, hA8, ?_, ?_⟩
            · intro k hk1 hk2
              by_cases hki : k = i
              · subst hki
                have h1 := hA1 (by omega)
                rw [hS6] at h1
                simpa [optAddrLt] using h1
              · exact hA2 k (by omega) hk2
            · intro k hk1 hk2
              by_cases hki : k = i
              · subst hki; exact hoff
              · exact hA3 k (by omega) hk2
            · intro k hk1 hk2 hpos
              by_cases hki : k = i
              · subst hki; exact hK
              · exact hA5 k (by omega) hk2 hpos
            · intro k hk1 hk2
              by_cases hklt : k < rangeSum (sCnt r) (i + 1)
              · exact hS3 k hk1 hklt
              · exact hA7 k (by omega) hk2
            · intro k hk1 hk2 hpos
              by_cases hki : k = i
              · subst hki
                exact hS5 (by omega)
              · exact hA9 k (by omega) hk2 hpos
            · intro k hk1 hk2
              by_cases hki : k = i
              · subst hki
                intro j hj
                exact hS4 (rangeSum (sCnt r) k + j) (by omega) (by omega)
              · exact hA10 k (by omega) hk2

end GethState

namespace GethState

/-- C2: for byte streams (whose lengths fit a Go int32, as slice lengths
do), the history decoder accepts the four-stream encoding if and only if
it satisfies the structural invariants: strictly ascending account
addresses, strictly ascending slot hashes within each account, gap-free
account and slot data offsets, and index/data stream lengths consistent
(`ValidStreams`); otherwise `History.decode` returns an error. -/
theorem C2_decode_accepts_iff_valid
    (ad sd ai si : Bytes)
    (hai : IsByteStream ai) (hsi : IsByteStream si)
    (hadL : ad.length < 2 ^ 31) (hsiL : si.length < 2 ^ 31)
    (hsdL : sd.length < 2 ^ 31) :
    (∃ h, History.decode ad sd ai si = .ok h) ↔
      ValidStreams ⟨ad, sd, ai, si⟩ := by
  constructor
  · rintro ⟨h, hok⟩
    simp only [History.decode] at hok
    cases hv : decoder.verify ⟨ad, sd, ai, si⟩ with
    | error e =>
      simp only [hv] at hok
      cases hok
    | ok u =>
      simp only [hv] at hok
      have hcond := hv
      simp only [decoder.verify] at hcond
      split at hcond
      · cases hcond
      · next hg1 =>
        split at hcond
        · cases hcond
        · next hg2 =>
          push_neg at hg1 hg2
          cases hloop : decodeLoop ⟨ad, sd, ai, si⟩
              (ai.length / accountIndexSize) 0 ⟨none, 0, 0, 0⟩ with
          | error e =>
            simp only [hloop] at hok
            cases hok
          | ok out =>
            obtain ⟨accs, stors⟩ := out
            obtain ⟨hA1, hA2, hA3, hA4, hA5, hA6, hA7, hA8, hA9, hA10⟩ :=
              decodeLoop_ok_inv ⟨ad, sd, ai, si⟩ hai hsi hadL hsiL hsdL
                (ai.length / accountIndexSize) 0 ⟨none, 0, 0, 0⟩ accs stors
                hloop rfl rfl rfl (Nat.zero_le _) (Nat.zero_le _)
                (Nat.zero_le _)
            simp only [Nat.zero_add] at hA2 hA3 hA4 hA5 hA6 hA7 hA8 hA9 hA10
            refine ⟨hg1.1, ?_, hg2, ?_, ?_, hA4, ?_, hA6, ?_, hA8, ?_, ?_⟩
            · intro hnil
              have hnil2 : ai = [] := hnil
              exact hg1.2 (by rw [hnil2]; rfl)
            · intro i hi
              exact hA2 i (Nat.zero_le i) hi
            · intro i hi
              exact hA3 i (Nat.zero_le i) hi
            · intro i hi hpos
              exact hA5 i (Nat.zero_le i) hi hpos
            · intro k hk
              exact hA7 k (Nat.zero_le k) hk
            · intro i hi hpos
              exact hA9 i (Nat.zero_le i) hi hpos
            · intro i hi j hj
              exact hA10 i (Nat.zero_le i) hi j hj
  · intro hv
    have hg1 : ¬ (ai.length % accountIndexSize ≠ 0 ∨ ai.length = 0) := by
      push_neg
      refine ⟨hv.aiAligned, fun h0 => hv.aiNonempty ?_⟩
      exact List.length_eq_zero.mp h0
    have hg2 : ¬ (si.length % slotIndexSize ≠ 0) := by
      push_neg
      exact hv.siAligned
    have hvv : decoder.verify ⟨ad, sd, ai, si⟩ = .ok () := by
      simp only [decoder.verify]
      rw [if_neg hg1, if_neg hg2]
    obtain ⟨out, hout⟩ := decodeLoop_valid ⟨ad, sd, ai, si⟩ hv hai hsi
      hadL hsiL hsdL (nAcc ⟨ad, sd, ai, si⟩) 0 ⟨none, 0, 0, 0⟩
      (Nat.zero_add _) rfl rfl rfl (fun _ => trivial)
    obtain ⟨accs, stors⟩ := out
    refine ⟨⟨accs, stors⟩, ?_⟩
    have hnacc : nAcc ⟨ad, sd, ai, si⟩ = ai.length / accountIndexSize := rfl
    rw [hnacc] at hout
    simp only [History.decode, hvv, hout]

end GethState

namespace GethState

theorem C2_decode_accepts_iff_valid_witness :
    (∃ h, History.decode [] [] (accountIndex.encode ⟨3, 0, 0, 0, 0⟩) [] =
        .ok h) ↔
      ValidStreams ⟨[], [], accountIndex.encode ⟨3, 0, 0, 0, 0⟩, []⟩ :=
  C2_decode_accepts_iff_valid [] [] (accountIndex.encode ⟨3, 0, 0, 0, 0⟩) []
    (by decide) (by decide) (by decide) (by decide) (by decide)

end GethState

namespace GethState

/-- A trie node held by the node buffer: a hash and an RLP blob. -/
structure TNode where
  hash : Nat
  blob : Bytes
deriving Repr, DecidableEq

/-- Modelled from the spec: the trienode package is not in the sources;
the spec's flush description takes the delete branch "when `node.blob`
empty", which is what `trienode.Node.IsDeleted` computes. -/
def TNode.isDeleted (n : TNode) : Bool := n.blob.isEmpty

/-- One operation emitted to the key-value store. `fsync` never appears
in the embedded code and exists so the spec's required sync step can be
stated. -/
inductive StoreOp
  | writeNode (owner : Nat) (path : Bytes) (blob : Bytes)
  | deleteNode (owner : Nat) (path : Bytes)
  | writePersistentStateID (id : Nat)
  | batchWrite
  | fsync
deriving Repr, DecidableEq

/-- Embedding of `nodebuffer`: dirty nodes as an association list
`owner → path → node`, with the aggregated size, the memory limit and
the diff-layer counter. -/
structure nodebuffer where
  layers : Nat
  size : Nat
  limit : Nat
  nodes : List (Nat × List (Bytes × TNode))
deriving Repr, DecidableEq

/-- Embedding of `nodebuffer.reset`. -/
def nodebuffer.reset (b : nodebuffer) : nodebuffer :=
  { layers := 0, size := 0, limit := b.limit, nodes := [] }

/-- Inner loop of `writeNodes` over one owner's path-indexed subset:
deleted nodes turn into store deletions, live nodes into store writes. -/
def writeSubset (owner : Nat) : List (Bytes × TNode) → List StoreOp
  | [] => []
  | (path, n) :: rest =>
    (if n.isDeleted then [StoreOp.deleteNode owner path]
     else [StoreOp.writeNode owner path n.blob]) ++ writeSubset owner rest

/-- Embedding of `writeNodes`: one delete or write per buffered node. -/
def writeNodes : List (Nat × List (Bytes × TNode)) → List StoreOp
  | [] => []
  | (owner, subset) :: rest => writeSubset owner subset ++ writeNodes rest

/-- Result of `nodebuffer.flush`: silently kept in memory, refused with
the expected state id, or persisted with the emitted operation trace and
the successor buffer. -/
inductive FlushResult
  | noop
  | failed (wantId : Nat)
  | flushed (ops : List StoreOp) (b2 : nodebuffer)
deriving Repr, DecidableEq

/-- Embedding of `nodebuffer.flush`: `head` is the persistent state id
read from the store; the `% U64` mirrors Go's `uint64` addition. -/
def nodebuffer.flush (b : nodebuffer) (head id : Nat) (force : Bool) :
    FlushResult :=
  if b.size ≤ b.limit ∧ force = false then .noop
  else if (head + b.layers) % U64 ≠ id then .failed ((head + b.layers) % U64)
  else .flushed
    (writeNodes b.nodes ++ [.writePersistentStateID id, .batchWrite])
    b.reset

theorem fsync_not_mem_writeSubset (owner : Nat) (subset : List (Bytes × TNode)) :
    StoreOp.fsync ∉ writeSubset owner subset := by
  induction subset with
  | nil => simp [writeSubset]
  | cons hd tl ih =>
    obtain ⟨path, n⟩ := hd
    simp only [writeSubset, List.mem_append]
    rintro (hmem | hmem)
    · split at hmem <;> simp at hmem
    · exact ih hmem

theorem fsync_not_mem_writeNodes (nodes : List (Nat × List (Bytes × TNode))) :
    StoreOp.fsync ∉ writeNodes nodes := by
  induction nodes with
  | nil => simp [writeNodes]
  | cons hd tl ih =>
    obtain ⟨owner, subset⟩ := hd
    simp only [writeNodes, List.mem_append]
    rintro (hmem | hmem)
    · exact fsync_not_mem_writeSubset owner subset hmem
    · exact ih hmem

theorem mem_writeSubset (owner : Nat) (subset : List (Bytes × TNode))
    (path : Bytes) (n : TNode) (hmem : (path, n) ∈ subset) :
    (if n.isDeleted then StoreOp.deleteNode owner path
     else StoreOp.writeNode owner path n.blob) ∈ writeSubset owner subset := by
  induction subset with
  | nil => cases hmem
  | cons hd tl ih =>
    obtain ⟨p2, n2⟩ := hd
    simp only [writeSubset, List.mem_append]
    rcases List.mem_cons.mp hmem with heq | htl
    · left
      cases heq
      split <;> simp
    · right
      exact ih htl

theorem mem_writeNodes (nodes : List (Nat × List (Bytes × TNode)))
    (owner : Nat) (subset : List (Bytes × TNode))
    (hmem : (owner, subset) ∈ nodes) (path : Bytes) (n : TNode)
    (hmem2 : (path, n) ∈ subset) :
    (if n.isDeleted then StoreOp.deleteNode owner path
     else StoreOp.writeNode owner path n.blob) ∈ writeNodes nodes := by
  induction nodes with
  | nil => cases hmem
  | cons hd tl ih =>
    obtain ⟨o2, s2⟩ := hd
    simp only [writeNodes, List.mem_append]
    rcases List.mem_cons.mp hmem with heq | htl
    · left
      cases heq
      exact mem_writeSubset owner subset path n hmem2
    · right
      exact ih htl

end GethState

namespace GethState

/-- C3 (amended): for every node-buffer state, store-resident persistent
state id and target id: flush is a no-op when size ≤ limit and force is
false; otherwise it refuses with an error naming the expected id unless
the persistent state id plus the buffer's layers counter equals the
target id; and on success it emits one atomic batch holding a delete or
write per buffered node (deleting the store entry when the node blob is
empty) followed by the persistent-state-id update and the batch write,
and resets the buffer to empty (layers = 0, size = 0, no nodes). The
claim's required fsync step does not exist: the emitted trace never
contains an fsync. -/
theorem C3_flush_characterization (b : nodebuffer) (head id : Nat)
    (force : Bool) :
    (b.size ≤ b.limit ∧ force = false → b.flush head id force = .noop) ∧
    (¬ (b.size ≤ b.limit ∧ force = false) → (head + b.layers) % U64 ≠ id →
      b.flush head id force = .failed ((head + b.layers) % U64)) ∧
    (¬ (b.size ≤ b.limit ∧ force = false) → (head + b.layers) % U64 = id →
      ∃ ops, b.flush head id force =
          .flushed ops
            { layers := 0, size := 0, limit := b.limit, nodes := [] } ∧
        ops = writeNodes b.nodes ++
          [.writePersistentStateID id, .batchWrite] ∧
        (∀ owner subset, (owner, subset) ∈ b.nodes →
          ∀ path n, (path, n) ∈ subset →
            (if n.isDeleted then StoreOp.deleteNode owner path
             else StoreOp.writeNode owner path n.blob) ∈ ops) ∧
        StoreOp.fsync ∉ ops) := by
  refine ⟨?_, ?_, ?_⟩
  · intro hcond
    simp only [nodebuffer.flush]
    rw [if_pos hcond]
  · intro hcond hne
    simp only [nodebuffer.flush]
    rw [if_neg hcond, if_pos hne]
  · intro hcond heq
    refine ⟨writeNodes b.nodes ++ [.writePersistentStateID id, .batchWrite],
      ?_, rfl, ?_, ?_⟩
    · simp only [nodebuffer.flush]
      rw [if_neg hcond, if_neg (by omega)]
      rfl
    · intro owner subset hmem path n hmem2
      exact List.mem_append_left _ (mem_writeNodes b.nodes owner subset hmem
        path n hmem2)
    · intro hmem
      rcases List.mem_append.mp hmem with hmem | hmem
      · exact fsync_not_mem_writeNodes b.nodes hmem
      · simp at hmem

/-- C3 counterexample: a successful flush of a single live node past the
limit emits exactly the node write, the persistent-state-id update and
the atomic batch write — and no fsync — refuting the claim's "fsyncs via
the store". -/
theorem C3_counterexample :
    nodebuffer.flush ⟨1, 5, 0, [(0, [([1], ⟨7, [9]⟩)])]⟩ 0 1 false =
      .flushed
        [.writeNode 0 [1] [9], .writePersistentStateID 1, .batchWrite]
        ⟨0, 0, 0, []⟩ ∧
    StoreOp.fsync ∉
      ([.writeNode 0 [1] [9], .writePersistentStateID 1, .batchWrite] :
        List StoreOp) := by
  constructor
  · rfl
  · decide

theorem C3_flush_characterization_witness :
    nodebuffer.flush ⟨0, 0, 10, []⟩ 5 5 false = FlushResult.noop ∧
    ∃ ops, nodebuffer.flush ⟨1, 5, 0, [(0, [([2], ⟨7, []⟩)])]⟩ 0 1 false =
        .flushed ops ⟨0, 0, 0, []⟩ ∧ StoreOp.fsync ∉ ops := by
  constructor
  · exact (C3_flush_characterization ⟨0, 0, 10, []⟩ 5 5 false).1
      ⟨by decide, rfl⟩
  · obtain ⟨ops, hfl, hops, hmem, hfs⟩ :=
      (C3_flush_characterization ⟨1, 5, 0, [(0, [([2], ⟨7, []⟩)])]⟩ 0 1
        false).2.2 (by decide) (by decide)
    exact ⟨ops, hfl, hfs⟩

end GethState

namespace GethState

/-- Errors returned by layer reads. -/
inductive LayerErr
  | snapshotStale
  | notCoveredYet
deriving Repr, DecidableEq

/-- Embedding of `diskLayer`: the stale flag, the generator progress
marker (`none` when no snapshot generation is running), the dirty
buffer, the optional clean node cache and the persistent tables, all as
lookup functions. -/
structure DiskLayer where
  stale : Bool
  genMarker : Option Bytes
  cleans : Option (Nat → Bytes → Bytes)
  bufferNode : Nat → Bytes → Option TNode
  bufferAccount : Bytes → Option Bytes
  bufferStorage : Bytes → Bytes → Option Bytes
  diskNode : Nat → Bytes → Bytes
  diskAccount : Bytes → Bytes
  diskStorage : Bytes → Bytes → Bytes

/-- Embedding of `diskLayer.markStale`: the panic on an already-stale
layer is modelled as `none`. -/
def DiskLayer.markStale (dl : DiskLayer) : Option DiskLayer :=
  if dl.stale then none else some { dl with stale := true }

/-- Embedding of `diskLayer.node`: stale check, then the dirty buffer,
then the clean cache (a hit needs a non-empty blob), then disk. -/
def DiskLayer.node (dl : DiskLayer) (owner : Nat) (path : Bytes) :
    Except LayerErr Bytes :=
  if dl.stale then .error .snapshotStale
  else
    match dl.bufferNode owner path with
    | some n => .ok n.blob
    | none =>
      match dl.cleans with
      | some cache =>
        if (cache owner path).length > 0 then .ok (cache owner path)
        else .ok (dl.diskNode owner path)
      | none => .ok (dl.diskNode owner path)

/-- Embedding of `diskLayer.account`: stale check, then the dirty
buffer, then the generator marker guard, then the flat snapshot table. -/
def DiskLayer.account (dl : DiskLayer) (hash : Bytes) :
    Except LayerErr Bytes :=
  if dl.stale then .error .snapshotStale
  else
    match dl.bufferAccount hash with
    | some blob => .ok blob
    | none =>
      match dl.genMarker with
      | some marker =>
        if bcmp hash marker = .gt then .error .notCoveredYet
        else .ok (dl.diskAccount hash)
      | none => .ok (dl.diskAccount hash)

/-- Embedding of `diskLayer.storage`: stale check, then the dirty
buffer, then the marker guard on the compound key `accountHash ++
storageHash`, then the flat snapshot table. -/
def DiskLayer.storage (dl : DiskLayer) (accountHash storageHash : Bytes) :
    Except LayerErr Bytes :=
  if dl.stale then .error .snapshotStale
  else
    match dl.bufferStorage accountHash storageHash with
    | some blob => .ok blob
    | none =>
      match dl.genMarker with
      | some marker =>
        if bcmp (accountHash ++ storageHash) marker = .gt then
          .error .notCoveredYet
        else .ok (dl.diskStorage accountHash storageHash)
      | none => .ok (dl.diskStorage accountHash storageHash)

/-- C4: a disk layer transitions at most once from live to stale —
`markStale` on an already-stale layer panics (modelled as `none`) and on
a live layer yields the same layer with the stale flag set — and every
read on a stale layer (trie node, account, storage slot) fails with the
stale error instead of returning data. -/
theorem C4_stale_discipline (dl : DiskLayer) :
    (dl.stale = true → dl.markStale = none) ∧
    (dl.stale = false → dl.markStale = some { dl with stale := true }) ∧
    (dl.stale = true →
      (∀ owner path, dl.node owner path = .error .snapshotStale) ∧
      (∀ hash, dl.account hash = .error .snapshotStale) ∧
      (∀ ah sh, dl.storage ah sh = .error .snapshotStale)) := by
  refine ⟨?_, ?_, ?_⟩
  · intro hstale
    simp [DiskLayer.markStale, hstale]
  · intro hlive
    simp [DiskLayer.markStale, hlive]
  · intro hstale
    refine ⟨?_, ?_, ?_⟩
    · intro owner path
      simp [DiskLayer.node, hstale]
    · intro hash
      simp [DiskLayer.account, hstale]
    · intro ah sh
      simp [DiskLayer.storage, hstale]

theorem C4_stale_discipline_witness :
    DiskLayer.markStale
        ⟨true, none, none, fun _ _ => none, fun _ => none,
          fun _ _ => none, fun _ _ => [], fun _ => [], fun _ _ => []⟩ =
      none ∧
    DiskLayer.markStale
        ⟨false, none, none, fun _ _ => none, fun _ => none,
          fun _ _ => none, fun _ _ => [], fun _ => [], fun _ _ => []⟩ =
      some ⟨true, none, none, fun _ _ => none, fun _ => none,
        fun _ _ => none, fun _ _ => [], fun _ => [], fun _ _ => []⟩ ∧
    DiskLayer.account
        ⟨true, none, none, fun _ _ => none, fun _ => none,
          fun _ _ => none, fun _ _ => [], fun _ => [], fun _ _ => []⟩
        [5] =
      .error .snapshotStale := by
  refine ⟨?_, ?_, ?_⟩
  · exact (C4_stale_discipline _).1 rfl
  · exact (C4_stale_discipline
      ⟨false, none, none, fun _ _ => none, fun _ => none,
        fun _ _ => none, fun _ _ => [], fun _ => [], fun _ _ => []⟩).2.1 rfl
  · exact ((C4_stale_discipline _).2.2 rfl).2.1 [5]

end GethState

namespace GethState

/-- C5 (amended): on a live disk layer whose snapshot is being generated
(marker set), an account read above the marker or a storage read whose
compound key (account hash followed by slot hash) is above the marker
returns the not-covered-yet error only when the dirty buffer misses; a
buffer hit is served first regardless of the marker, and reads at or
below the marker fall through to the flat snapshot tables on a buffer
miss. -/
theorem C5_marker_guard (dl : DiskLayer) (marker : Bytes)
    (hlive : dl.stale = false) (hm : dl.genMarker = some marker) :
    (∀ hash, dl.bufferAccount hash = none → bcmp hash marker = .gt →
      dl.account hash = .error .notCoveredYet) ∧
    (∀ hash blob, dl.bufferAccount hash = some blob →
      dl.account hash = .ok blob) ∧
    (∀ hash, dl.bufferAccount hash = none → bcmp hash marker ≠ .gt →
      dl.account hash = .ok (dl.diskAccount hash)) ∧
    (∀ ah sh, dl.bufferStorage ah sh = none →
      bcmp (ah ++ sh) marker = .gt →
      dl.storage ah sh = .error .notCoveredYet) ∧
    (∀ ah sh blob, dl.bufferStorage ah sh = some blob →
      dl.storage ah sh = .ok blob) ∧
    (∀ ah sh, dl.bufferStorage ah sh = none →
      bcmp (ah ++ sh) marker ≠ .gt →
      dl.storage ah sh = .ok (dl.diskStorage ah sh)) := by
  refine ⟨?_, ?_, ?_, ?_, ?_, ?_⟩
  · intro hash hbuf hcmp
    simp [DiskLayer.account, hlive, hbuf, hm, hcmp]
  · intro hash blob hbuf
    simp [DiskLayer.account, hlive, hbuf]
  · intro hash hbuf hcmp
    simp [DiskLayer.account, hlive, hbuf, hm, hcmp]
  · intro ah sh hbuf hcmp
    simp [DiskLayer.storage, hlive, hbuf, hm, hcmp]
  · intro ah sh blob hbuf
    simp [DiskLayer.storage, hlive, hbuf]
  · intro ah sh hbuf hcmp
    simp [DiskLayer.storage, hlive, hbuf, hm, hcmp]

/-- C5 counterexample: a live layer generating at marker `[5]` with a
dirty-buffer entry for account hash `[9]` (strictly above the marker)
serves the buffered blob instead of the not-covered-yet error the claim
requires for every read above the marker. -/
theorem C5_counterexample :
    bcmp [9] [5] = .gt ∧
    DiskLayer.account
        ⟨false, some [5], none, fun _ _ => none,
          fun h => if h = [9] then some [7] else none,
          fun _ _ => none, fun _ _ => [], fun _ => [], fun _ _ => []⟩
        [9] =
      .ok [7] := by
  constructor
  · rfl
  · rfl

theorem C5_marker_guard_witness :
    DiskLayer.account
        ⟨false, some [5], none, fun _ _ => none, fun _ => none,
          fun _ _ => none, fun _ _ => [], fun _ => [3], fun _ _ => []⟩
        [9] =
      .error .notCoveredYet ∧
    DiskLayer.account
        ⟨false, some [5], none, fun _ _ => none, fun _ => none,
          fun _ _ => none, fun _ _ => [], fun _ => [3], fun _ _ => []⟩
        [4] =
      .ok [3] := by
  constructor
  · exact (C5_marker_guard
      ⟨false, some [5], none, fun _ _ => none, fun _ => none,
        fun _ _ => none, fun _ _ => [], fun _ => [3], fun _ _ => []⟩
      [5] rfl rfl).1 [9] rfl (by decide)
  · exact (C5_marker_guard
      ⟨false, some [5], none, fun _ _ => none, fun _ => none,
        fun _ _ => none, fun _ _ => [], fun _ => [3], fun _ _ => []⟩
      [5] rfl rfl).2.2.1 [4] rfl (by decide)

end GethState

namespace GethState

/-- A layer stack: diff layers, each holding its dirty node map, over
the base disk layer. -/
inductive Layer
  | disk (dl : DiskLayer)
  | diff (nodes : Nat → Bytes → Option Bytes) (parent : Layer)

/-- Embedding of the layer `node` walk: a diff layer serves its own
dirty node if present and otherwise asks its parent; the disk layer
performs the buffered/cached/persistent read. -/
def Layer.node : Layer → Nat → Bytes → Except LayerErr Bytes
  | .disk dl, owner, path => dl.node owner path
  | .diff nodes parent, owner, path =>
    match nodes owner path with
    | some n => .ok n
    | none => parent.node owner path

/-- The first hit for `(owner, path)` among the diff layers, walking
from the top of the stack down. -/
def Layer.firstDiffHit : Layer → Nat → Bytes → Option Bytes
  | .disk _, _, _ => none
  | .diff nodes parent, owner, path =>
    match nodes owner path with
    | some n => some n
    | none => parent.firstDiffHit owner path

/-- The disk layer at the bottom of a stack. -/
def Layer.base : Layer → DiskLayer
  | .disk dl => dl
  | .diff _ parent => parent.base

/-- C6: the layer walk returns the first hit found going down the diff
chain — a node recorded in a higher layer shadows lower ones — falls
through to the base disk layer when no diff layer holds the position,
and when the buffer, the clean cache and the store all miss, the live
disk layer answers with an empty blob and no error. -/
theorem C6_layer_walk (L : Layer) (owner : Nat) (path : Bytes) :
    (∀ n, L.firstDiffHit owner path = some n →
      L.node owner path = .ok n) ∧
    (L.firstDiffHit owner path = none →
      L.node owner path = L.base.node owner path) ∧
    (∀ dl : DiskLayer, dl.stale = false →
      dl.bufferNode owner path = none →
      (∀ cache, dl.cleans = some cache → cache owner path = []) →
      dl.diskNode owner path = [] →
      DiskLayer.node dl owner path = .ok []) := by
  refine ⟨?_, ?_, ?_⟩
  · induction L with
    | disk dl =>
      intro n hn
      simp [Layer.firstDiffHit] at hn
    | diff nodes parent ih =>
      intro n hn
      simp only [Layer.firstDiffHit] at hn
      simp only [Layer.node]
      cases hcur : nodes owner path with
      | some m =>
        rw [hcur] at hn
        cases hn
        rfl
      | none =>
        rw [hcur] at hn
        exact ih n hn
  · induction L with
    | disk dl =>
      intro _
      simp [Layer.node, Layer.base]
    | diff nodes parent ih =>
      intro hn
      simp only [Layer.firstDiffHit] at hn
      simp only [Layer.node, Layer.base]
      cases hcur : nodes owner path with
      | some m =>
        rw [hcur] at hn
        cases hn
      | none =>
        rw [hcur] at hn
        exact ih hn
  · intro dl hlive hbuf hclean hdisk
    simp only [DiskLayer.node, hlive]
    rw [hbuf]
    cases hc : dl.cleans with
    | none =>
      simp [hdisk]
    | some cache =>
      have := hclean cache hc
      simp [this, hdisk]

theorem C6_layer_walk_witness :
    Layer.node
        (.diff (fun o p => if o = 1 ∧ p = [2] then some [8] else none)
          (.disk ⟨false, none, none, fun _ _ => none, fun _ => none,
            fun _ _ => none, fun _ _ => [], fun _ => [], fun _ _ => []⟩))
        1 [2] =
      .ok [8] ∧
    DiskLayer.node
        ⟨false, none, none, fun _ _ => none, fun _ => none,
          fun _ _ => none, fun _ _ => [], fun _ => [], fun _ _ => []⟩
        1 [3] =
      .ok [] := by
  constructor
  · exact (C6_layer_walk
      (.diff (fun o p => if o = 1 ∧ p = [2] then some [8] else none)
        (.disk ⟨false, none, none, fun _ _ => none, fun _ => none,
          fun _ _ => none, fun _ _ => [], fun _ => [], fun _ _ => []⟩))
      1 [2]).1 [8] (by simp [Layer.firstDiffHit])
  · exact ((C6_layer_walk
      (.disk ⟨false, none, none, fun _ _ => none, fun _ => none,
        fun _ _ => none, fun _ _ => [], fun _ => [], fun _ _ => []⟩)
      1 [3]).2.2
      ⟨false, none, none, fun _ _ => none, fun _ => none,
        fun _ _ => none, fun _ _ => [], fun _ => [], fun _ _ => []⟩
      rfl rfl (fun cache hc => by cases hc) rfl)

end GethState

namespace GethState

/-- Journal loading errors. -/
inductive JErr
  | missJournal
  | unexpectedVersion
  | unmatchedJournal
  | invalidStateID
deriving Repr, DecidableEq

/-- The layer journal version expected by the loader. -/
def journalVersion : Nat := 0

/-- A parsed layer journal: the recorded version, the first disk root,
the disk layer section (root and state id) and the diff layer roots.
RLP-level decode failures are outside the model; a missing journal is
`none` at the use sites. -/
structure JournalData where
  version : Nat
  root : Nat
  baseRoot : Nat
  baseId : Nat
  diffRoots : List Nat
deriving Repr, DecidableEq

/-- The reconstructed layer stack, abstracted to the disk layer root,
its state id, the node-buffer layers counter and the diff layer roots. -/
structure LoadedStack where
  diskRoot : Nat
  diskId : Nat
  bufferLayers : Nat
  diffRoots : List Nat
deriving Repr, DecidableEq

/-- Embedding of `Database.loadJournal` (with `loadDiskLayer` inlined):
missing journal, unexpected version, disk-root mismatch against the
persistent state and a stored persistent id above the journal id all
fail; otherwise the stack is rebuilt with `id - stored` buffer layers. -/
def loadJournal (journal : Option JournalData) (diskRoot stored : Nat) :
    Except JErr LoadedStack :=
  match journal with
  | none => .error .missJournal
  | some j =>
    if j.version ≠ journalVersion then .error .unexpectedVersion
    else if j.root ≠ diskRoot then .error .unmatchedJournal
    else if stored > j.baseId then .error .invalidStateID
    else .ok ⟨j.baseRoot, j.baseId, j.baseId - stored, j.diffRoots⟩

/-- Embedding of `Database.loadLayers`: resolve the journal and fall
back to a bare disk layer (persistent root, persistent state id, empty
buffer) on any journal error. -/
def loadLayers (journal : Option JournalData) (diskRoot stored : Nat) :
    LoadedStack :=
  match loadJournal journal diskRoot stored with
  | .ok head => head
  | .error _ => ⟨diskRoot, stored, 0, []⟩

/-- C7 (amended): on startup the journal is reconstructed into a layer
stack only if its first recorded disk root equals the account-trie root
read from the store — but the converse fails: the journal is also
discarded (falling back to a bare disk layer backed by the persistent
state) when it is missing, when its version is unexpected, or when the
stored persistent state id exceeds the journal's disk-layer id, even
with matching roots. -/
theorem C7_journal_reconstruction (journal : Option JournalData)
    (diskRoot stored : Nat) :
    (∀ j, journal = some j → j.version = journalVersion →
      j.root = diskRoot → stored ≤ j.baseId →
      loadLayers journal diskRoot stored =
        ⟨j.baseRoot, j.baseId, j.baseId - stored, j.diffRoots⟩) ∧
    (journal = none →
      loadLayers journal diskRoot stored = ⟨diskRoot, stored, 0, []⟩) ∧
    (∀ j, journal = some j → j.root ≠ diskRoot →
      loadLayers journal diskRoot stored = ⟨diskRoot, stored, 0, []⟩) ∧
    (∀ j, journal = some j → j.version ≠ journalVersion →
      loadLayers journal diskRoot stored = ⟨diskRoot, stored, 0, []⟩) ∧
    (∀ j, journal = some j → j.version = journalVersion →
      j.root = diskRoot → stored > j.baseId →
      loadLayers journal diskRoot stored = ⟨diskRoot, stored, 0, []⟩) := by
  refine ⟨?_, ?_, ?_, ?_, ?_⟩
  · intro j hj hv hr hs
    subst hj
    simp [loadLayers, loadJournal, hv, hr, Nat.not_lt.mpr hs]
  · intro hj
    subst hj
    rfl
  · intro j hj hr
    subst hj
    by_cases hv : j.version = journalVersion
    · simp [loadLayers, loadJournal, hv, hr]
    · simp [loadLayers, loadJournal, hv]
  · intro j hj hv
    subst hj
    simp [loadLayers, loadJournal, hv]
  · intro j hj hv hr hs
    subst hj
    simp [loadLayers, loadJournal, hv, hr, hs]

/-- C7 counterexample: a journal whose first disk root matches the
persistent root but whose version is wrong is discarded, refuting the
claim's "if and only if the first disk root equals the on-disk root". -/
theorem C7_counterexample :
    loadJournal (some ⟨1, 5, 5, 3, []⟩) 5 0 = .error .unexpectedVersion ∧
    loadLayers (some ⟨1, 5, 5, 3, []⟩) 5 0 = ⟨5, 0, 0, []⟩ ∧
    (⟨5, 0, 0, []⟩ : LoadedStack) ≠ ⟨5, 3, 3, []⟩ := by
  refine ⟨rfl, rfl, by decide⟩

theorem C7_journal_reconstruction_witness :
    loadLayers (some ⟨0, 5, 7, 4, [9]⟩) 5 2 = ⟨7, 4, 2, [9]⟩ ∧
    loadLayers none 5 2 = ⟨5, 2, 0, []⟩ ∧
    loadLayers (some ⟨0, 6, 7, 4, [9]⟩) 5 2 = ⟨5, 2, 0, []⟩ := by
  refine ⟨?_, ?_, ?_⟩
  · exact (C7_journal_reconstruction (some ⟨0, 5, 7, 4, [9]⟩) 5 2).1
      ⟨0, 5, 7, 4, [9]⟩ rfl rfl rfl (by decide)
  · exact (C7_journal_reconstruction none 5 2).2.1 rfl
  · exact (C7_journal_reconstruction (some ⟨0, 6, 7, 4, [9]⟩) 5 2).2.2.1
      ⟨0, 6, 7, 4, [9]⟩ rfl (by decide)

end GethState

namespace GethState

theorem bcmp_swap (a b : Bytes) : bcmp b a = (bcmp a b).swap := by
  induction a generalizing b with
  | nil => cases b <;> simp [bcmp, Ordering.swap]
  | cons x xs ih =>
    cases b with
    | nil => simp [bcmp, Ordering.swap]
    | cons y ys =>
      simp only [bcmp]
      by_cases hxy : x < y
      · have hyx : ¬ y < x := by omega
        simp [hxy, hyx, Ordering.swap]
      · by_cases hyx : y < x
        · simp [hxy, hyx, Ordering.swap]
        · simp [hxy, hyx, ih]

theorem bcmp_take_of_lt {a b : Bytes} (h : bcmp a b = .lt) :
    bcmp a (b.take a.length) ≠ .gt := by
  induction a generalizing b with
  | nil => simp [bcmp]
  | cons x xs ih =>
    cases b with
    | nil => simp [bcmp] at h
    | cons y ys =>
      simp only [bcmp, List.length_cons, List.take_succ_cons] at h ⊢
      by_cases hxy : x < y
      · simp [hxy]
      · by_cases hyx : y < x
        · simp [hxy, hyx] at h
        · have h2 : bcmp xs ys = .lt := by simpa [hxy, hyx] using h
          simp only [if_neg hxy, if_neg hyx]
          exact ih h2

/-- Go's `common.HashLength`. -/
def HashLength : Nat := 32

/-- The minimal number of deleted entries that triggers a post-sweep
range compaction (`rangeCompactionThreshold`). -/
def rangeCompactionThreshold : Nat := 100000

/-- Modelled from the spec: `rawdb.IsCodeKey` is not in the sources; a
code key is the one-byte code prefix (ASCII `c`, 99) followed by a
32-byte code hash, and the second component is that hash. -/
def isCodeKey (key : Bytes) : Bool × Bytes :=
  if key.length = 33 ∧ key.headD 0 = 99 then (true, key.drop 1)
  else (false, [])

/-- The pruner's per-key deletion decision: state entries keyed by a
32-byte hash or by a code key are deleted when the bloom filter does not
contain the (code) hash; keys of any other shape are kept. -/
def shouldDelete (bloom : Bytes → Bool) (key : Bytes) : Bool :=
  if key.length = HashLength ∨ (isCodeKey key).1 = true then
    ! bloom (if (isCodeKey key).1 then (isCodeKey key).2 else key)
  else false

/-- The sweep state of `prune`: deleted keys, the deletion counter and
the compaction range endpoints. -/
structure PruneState where
  deleted : List Bytes
  count : Nat
  rangestart : Option Bytes
  rangelimit : Option Bytes
deriving Repr, DecidableEq

/-- One iteration of the sweep loop of `prune`: on deletion the range
endpoints are updated by copying the key into a fixed 32-byte buffer
(Go's `copy` into `make([]byte, common.HashLength)`), which truncates a
33-byte code key to its first 32 bytes. -/
def pruneStep (bloom : Bytes → Bool) (s : PruneState) (key : Bytes) :
    PruneState :=
  if shouldDelete bloom key then
    { deleted := s.deleted ++ [key],
      count := s.count + 1,
      rangestart :=
        match s.rangestart with
        | none => some (key.take HashLength)
        | some rs =>
          if bcmp rs key = .gt then some (key.take HashLength) else some rs,
      rangelimit :=
        match s.rangelimit with
        | none => some (key.take HashLength)
        | some rl =>
          if bcmp rl key = .lt then some (key.take HashLength) else some rl }
  else s

/-- Embedding of the sweep loop of `prune` over the full key iteration
order of the store. -/
def pruneRun (bloom : Bytes → Bool) (keys : List Bytes) : PruneState :=
  List.foldl (pruneStep bloom) ⟨[], 0, none, none⟩ keys

/-- Embedding of the compaction decision at the end of `prune`:
compaction of `(rangestart, rangelimit)` happens only when at least
`rangeCompactionThreshold` entries were deleted. -/
def pruneCompact (bloom : Bytes → Bool) (keys : List Bytes) :
    Option (Option Bytes × Option Bytes) :=
  let s := pruneRun bloom keys
  if s.count ≥ rangeCompactionThreshold then
    some (s.rangestart, s.rangelimit)
  else none

theorem shouldDelete_length {bloom : Bytes → Bool} {key : Bytes}
    (h : shouldDelete bloom key = true) : 32 ≤ key.length := by
  simp only [shouldDelete] at h
  split at h
  · next hcond =>
    rcases hcond with hlen | hcode
    · simp only [HashLength] at hlen
      omega
    · simp only [isCodeKey] at hcode
      split at hcode
      · next hc => omega
      · cases hcode
  · cases h

end GethState

namespace GethState

theorem foldl_pruneStep_deleted_count (bloom : Bytes → Bool) :
    ∀ (keys : List Bytes) (s : PruneState),
      (List.foldl (pruneStep bloom) s keys).deleted =
        s.deleted ++ keys.filter (fun k => shouldDelete bloom k) ∧
      (List.foldl (pruneStep bloom) s keys).count =
        s.count + (keys.filter (fun k => shouldDelete bloom k)).length := by
  intro keys
  induction keys with
  | nil =>
    intro s
    simp
  | cons k rest ih =>
    intro s
    simp only [List.foldl_cons, List.filter_cons]
    cases hd : shouldDelete bloom k with
    | true =>
      have hstep : pruneStep bloom s k =
          { deleted := s.deleted ++ [k],
            count := s.count + 1,
            rangestart :=
              match s.rangestart with
              | none => some (k.take HashLength)
              | some rs =>
                if bcmp rs k = .gt then some (k.take HashLength)
                else some rs,
            rangelimit :=
              match s.rangelimit with
              | none => some (k.take HashLength)
              | some rl =>
                if bcmp rl k = .lt then some (k.take HashLength)
                else some rl } := by
        simp [pruneStep, hd]
      rw [hstep]
      constructor
      · rw [(ih _).1]
        simp only [reduceIte]
        simp
      · rw [(ih _).2]
        simp only [reduceIte, List.length_cons]
        omega
    | false =>
      have hstep : pruneStep bloom s k = s := by
        simp [pruneStep, hd]
      rw [hstep]
      obtain ⟨h1, h2⟩ := ih s
      simp only [h1, h2]
      constructor
      · simp
      · simp

theorem take_le_self (k : Bytes) (n : Nat) : bcmp (k.take n) k ≠ .gt := by
  have hk : k = k.take n ++ k.drop n := (List.take_append_drop n k).symm
  calc bcmp (k.take n) k = bcmp (k.take n) (k.take n ++ k.drop n) := by
        rw [← hk]
    _ ≠ .gt := bcmp_self_append _ _

theorem foldl_pruneStep_bounds (bloom : Bytes → Bool) :
    ∀ (keys : List Bytes) (dels : List Bytes) (c : Nat) (rs rl : Bytes),
      rl.length = 32 →
      (∃ k, k ∈ dels ∧ rs = k.take HashLength) →
      (∃ k, k ∈ dels ∧ rl = k.take HashLength) →
      (∀ k, k ∈ dels → bcmp rs k ≠ .gt) →
      (∀ k, k ∈ dels → bcmp rl (k.take HashLength) ≠ .lt) →
      ∃ rs2 rl2 : Bytes,
        (List.foldl (pruneStep bloom) ⟨dels, c, some rs, some rl⟩
          keys).rangestart = some rs2 ∧
        (List.foldl (pruneStep bloom) ⟨dels, c, some rs, some rl⟩
          keys).rangelimit = some rl2 ∧
        rl2.length = 32 ∧
        (∃ k, k ∈ (List.foldl (pruneStep bloom) ⟨dels, c, some rs, some rl⟩
          keys).deleted ∧ rs2 = k.take HashLength) ∧
        (∃ k, k ∈ (List.foldl (pruneStep bloom) ⟨dels, c, some rs, some rl⟩
          keys).deleted ∧ rl2 = k.take HashLength) ∧
        (∀ k, k ∈ (List.foldl (pruneStep bloom) ⟨dels, c, some rs, some rl⟩
          keys).deleted → bcmp rs2 k ≠ .gt) ∧
        (∀ k, k ∈ (List.foldl (pruneStep bloom) ⟨dels, c, some rs, some rl⟩
          keys).deleted → bcmp rl2 (k.take HashLength) ≠ .lt) := by
  intro keys
  induction keys with
  | nil =>
    intro dels c rs rl hrl hers herl hlos hhis
    exact ⟨rs, rl, rfl, rfl, hrl, hers, herl, hlos, hhis⟩
  | cons k rest ih =>
    intro dels c rs rl hrl hers herl hlos hhis
    simp only [List.foldl_cons]
    cases hd : shouldDelete bloom k with
    | false =>
      have hstep : pruneStep bloom ⟨dels, c, some rs, some rl⟩ k =
          ⟨dels, c, some rs, some rl⟩ := by
        simp [pruneStep, hd]
      rw [hstep]
      exact ih dels c rs rl hrl hers herl hlos hhis
    | true =>
      have hklen : 32 ≤ k.length := shouldDelete_length hd
      have htklen : (k.take HashLength).length = 32 := by
        simp only [HashLength, List.length_take]
        omega
      have htk : bcmp (k.take HashLength) k ≠ .gt := take_le_self k _
      have hstep : pruneStep bloom ⟨dels, c, some rs, some rl⟩ k =
          ⟨dels ++ [k], c + 1,
            if bcmp rs k = .gt then some (k.take HashLength) else some rs,
            if bcmp rl k = .lt then some (k.take HashLength)
            else some rl⟩ := by
        simp [pruneStep, hd]
      rw [hstep]
      by_cases hgt : bcmp rs k = .gt <;> by_cases hlt : bcmp rl k = .lt
      · rw [if_pos hgt, if_pos hlt]
        refine ih (dels ++ [k]) (c + 1) (k.take HashLength)
          (k.take HashLength) htklen
          ⟨k, by simp, rfl⟩ ⟨k, by simp, rfl⟩ ?_ ?_
        · intro k2 hk2
          rcases List.mem_append.mp hk2 with hk2 | hk2
          · have hkrs : bcmp k rs ≠ .gt := by
              rw [bcmp_swap, hgt]
              simp [Ordering.swap]
            exact bcmp_trans_le (bcmp_trans_le htk hkrs) (hlos k2 hk2)
          · simp at hk2
            subst hk2
            exact htk
        · intro k2 hk2
          rcases List.mem_append.mp hk2 with hk2 | hk2
          · have hrltk : bcmp rl (k.take HashLength) ≠ .gt := by
              have := bcmp_take_of_lt hlt
              rw [hrl] at this
              exact this
            have hold := hhis k2 hk2
            rw [bcmp_swap] at hold ⊢
            intro hcontra
            have h1 : bcmp (k2.take HashLength) rl ≠ .gt := by
              revert hold
              cases bcmp (k2.take HashLength) rl <;>
                simp [Ordering.swap]
            have h2 := bcmp_trans_le h1 hrltk
            revert hcontra h2
            cases bcmp (k2.take HashLength) (k.take HashLength) <;>
              simp [Ordering.swap]
          · simp at hk2
            subst hk2
            rw [bcmp_self]
            simp
      · rw [if_pos hgt, if_neg hlt]
        refine ih (dels ++ [k]) (c + 1) (k.take HashLength) rl hrl
          ⟨k, by simp, rfl⟩ ?_ ?_ ?_
        · obtain ⟨k0, hk0, hrl0⟩ := herl
          exact ⟨k0, by simp [hk0], hrl0⟩
        · intro k2 hk2
          rcases List.mem_append.mp hk2 with hk2 | hk2
          · have hkrs : bcmp k rs ≠ .gt := by
              rw [bcmp_swap, hgt]
              simp [Ordering.swap]
            exact bcmp_trans_le (bcmp_trans_le htk hkrs) (hlos k2 hk2)
          · simp at hk2
            subst hk2
            exact htk
        · intro k2 hk2
          rcases List.mem_append.mp hk2 with hk2 | hk2
          · exact hhis k2 hk2
          · simp at hk2
            subst hk2
            have hkrl : bcmp k2 rl ≠ .gt := by
              rw [bcmp_swap]
              revert hlt
              cases bcmp rl k2 <;> simp [Ordering.swap]
            have h1 := bcmp_trans_le htk hkrl
            rw [bcmp_swap]
            revert h1
            cases bcmp (k2.take HashLength) rl <;> simp [Ordering.swap]
      · rw [if_neg hgt, if_pos hlt]
        refine ih (dels ++ [k]) (c + 1) rs (k.take HashLength) htklen
          ?_ ⟨k, by simp, rfl⟩ ?_ ?_
        · obtain ⟨k0, hk0, hrs0⟩ := hers
          exact ⟨k0, by simp [hk0], hrs0⟩
        · intro k2 hk2
          rcases List.mem_append.mp hk2 with hk2 | hk2
          · exact hlos k2 hk2
          · simp at hk2
            subst hk2
            exact hgt
        · intro k2 hk2
          rcases List.mem_append.mp hk2 with hk2 | hk2
          · have hrltk : bcmp rl (k.take HashLength) ≠ .gt := by
              have := bcmp_take_of_lt hlt
              rw [hrl] at this
              exact this
            have hold := hhis k2 hk2
            intro hcontra
            have h1 : bcmp (k2.take HashLength) rl ≠ .gt := by
              rw [bcmp_swap]
              revert hold
              cases bcmp rl (k2.take HashLength) <;>
                simp [Ordering.swap]
            have h2 := bcmp_trans_le h1 hrltk
            rw [bcmp_swap] at hcontra
            revert hcontra h2
            cases bcmp (k2.take HashLength) (k.take HashLength) <;>
              simp [Ordering.swap]
          · simp at hk2
            subst hk2
            rw [bcmp_self]
            simp
      · rw [if_neg hgt, if_neg hlt]
        refine ih (dels ++ [k]) (c + 1) rs rl hrl
          ?_ ?_ ?_ ?_
        · obtain ⟨k0, hk0, hrs0⟩ := hers
          exact ⟨k0, by simp [hk0], hrs0⟩
        · obtain ⟨k0, hk0, hrl0⟩ := herl
          exact ⟨k0, by simp [hk0], hrl0⟩
        · intro k2 hk2
          rcases List.mem_append.mp hk2 with hk2 | hk2
          · exact hlos k2 hk2
          · simp at hk2
            subst hk2
            exact hgt
        · intro k2 hk2
          rcases List.mem_append.mp hk2 with hk2 | hk2
          · exact hhis k2 hk2
          · simp at hk2
            subst hk2
            have hkrl : bcmp k2 rl ≠ .gt := by
              rw [bcmp_swap]
              revert hlt
              cases bcmp rl k2 <;> simp [Ordering.swap]
            have h1 := bcmp_trans_le htk hkrl
            rw [bcmp_swap]
            revert h1
            cases bcmp (k2.take HashLength) rl <;> simp [Ordering.swap]

end GethState

namespace GethState

theorem pruneRun_from_none (bloom : Bytes → Bool) :
    ∀ (keys : List Bytes) (c : Nat),
      List.foldl (pruneStep bloom) ⟨[], c, none, none⟩ keys =
          ⟨[], c, none, none⟩ ∨
      ∃ rs2 rl2 : Bytes,
        (List.foldl (pruneStep bloom) ⟨[], c, none, none⟩
          keys).rangestart = some rs2 ∧
        (List.foldl (pruneStep bloom) ⟨[], c, none, none⟩
          keys).rangelimit = some rl2 ∧
        (∃ k, k ∈ (List.foldl (pruneStep bloom) ⟨[], c, none, none⟩
          keys).deleted ∧ rs2 = k.take HashLength) ∧
        (∃ k, k ∈ (List.foldl (pruneStep bloom) ⟨[], c, none, none⟩
          keys).deleted ∧ rl2 = k.take HashLength) ∧
        (∀ k, k ∈ (List.foldl (pruneStep bloom) ⟨[], c, none, none⟩
          keys).deleted → bcmp rs2 k ≠ .gt) ∧
        (∀ k, k ∈ (List.foldl (pruneStep bloom) ⟨[], c, none, none⟩
          keys).deleted → bcmp rl2 (k.take HashLength) ≠ .lt) := by
  intro keys
  induction keys with
  | nil =>
    intro c
    left
    rfl
  | cons k rest ih =>
    intro c
    simp only [List.foldl_cons]
    cases hd : shouldDelete bloom k with
    | false =>
      have hstep : pruneStep bloom ⟨[], c, none, none⟩ k =
          ⟨[], c, none, none⟩ := by
        simp [pruneStep, hd]
      rw [hstep]
      exact ih c
    | true =>
      right
      have hklen : 32 ≤ k.length := shouldDelete_length hd
      have htklen : (k.take HashLength).length = 32 := by
        simp only [HashLength, List.length_take]
        omega
      have hstep : pruneStep bloom ⟨[], c, none, none⟩ k =
          ⟨[k], c + 1, some (k.take HashLength),
            some (k.take HashLength)⟩ := by
        simp [pruneStep, hd]
      rw [hstep]
      obtain ⟨rs2, rl2, h1, h2, _, h4, h5, h6, h7⟩ :=
        foldl_pruneStep_bounds bloom rest [k] (c + 1)
          (k.take HashLength) (k.take HashLength) htklen
          ⟨k, by simp, rfl⟩ ⟨k, by simp, rfl⟩
          (by
            intro k2 hk2
            simp at hk2
            subst hk2
            exact take_le_self k2 _)
          (by
            intro k2 hk2
            simp at hk2
            subst hk2
            rw [bcmp_self]
            simp)
      exact ⟨rs2, rl2, h1, h2, h4, h5, h6, h7⟩

/-- C8 (amended): during the sweep an entry is deleted exactly when its
key is a 32-byte hash or a code key whose (code) hash the bloom filter
does not contain — keys of any other shape are untouched; afterwards
compaction runs exactly when at least 100000 entries were deleted, and
its endpoints are 32-byte truncations of deleted keys that bound the
deleted set: the lower endpoint is at most every deleted key, the upper
endpoint is at least every deleted key's 32-byte truncation. For a
33-byte code key the stored endpoint is the truncation, strictly below
the key itself, so the compacted range is not always
[min deleted key, max deleted key] as the claim states. -/
theorem C8_prune_sweep (bloom : Bytes → Bool) (keys : List Bytes) :
    (pruneRun bloom keys).deleted =
      keys.filter (fun k => shouldDelete bloom k) ∧
    (pruneRun bloom keys).count =
      (keys.filter (fun k => shouldDelete bloom k)).length ∧
    (∀ k, shouldDelete bloom k = true ↔
      ((k.length = HashLength ∨ (isCodeKey k).1 = true) ∧
        bloom (if (isCodeKey k).1 then (isCodeKey k).2 else k) = false)) ∧
    (rangeCompactionThreshold ≤ (pruneRun bloom keys).count →
      pruneCompact bloom keys =
        some ((pruneRun bloom keys).rangestart,
          (pruneRun bloom keys).rangelimit)) ∧
    ((pruneRun bloom keys).count < rangeCompactionThreshold →
      pruneCompact bloom keys = none) ∧
    ((pruneRun bloom keys).deleted ≠ [] →
      ∃ rs rl : Bytes,
        (pruneRun bloom keys).rangestart = some rs ∧
        (pruneRun bloom keys).rangelimit = some rl ∧
        (∃ k, k ∈ (pruneRun bloom keys).deleted ∧
          rs = k.take HashLength) ∧
        (∃ k, k ∈ (pruneRun bloom keys).deleted ∧
          rl = k.take HashLength) ∧
        (∀ k, k ∈ (pruneRun bloom keys).deleted → bcmp rs k ≠ .gt) ∧
        (∀ k, k ∈ (pruneRun bloom keys).deleted →
          bcmp rl (k.take HashLength) ≠ .lt)) := by
  have hdc := foldl_pruneStep_deleted_count bloom keys ⟨[], 0, none, none⟩
  refine ⟨?_, ?_, ?_, ?_, ?_, ?_⟩
  · rw [pruneRun, hdc.1]
    simp
  · rw [pruneRun, hdc.2]
    simp
  · intro k
    simp only [shouldDelete]
    split
    · next hcond =>
      constructor
      · intro h
        refine ⟨hcond, ?_⟩
        cases hb : bloom (if (isCodeKey k).1 = true then (isCodeKey k).2
            else k) with
        | false => rfl
        | true =>
          rw [hb] at h
          cases h
      · rintro ⟨_, hb⟩
        rw [hb]
        rfl
    · next hcond =>
      constructor
      · intro h
        cases h
      · rintro ⟨hc, _⟩
        exact absurd hc hcond
  · intro hth
    simp only [pruneCompact]
    rw [if_pos hth]
  · intro hth
    simp only [pruneCompact]
    rw [if_neg (by omega)]
  · intro hne
    rcases pruneRun_from_none bloom keys 0 with hempty | hex
    · rw [pruneRun] at hne
      rw [hempty] at hne
      simp at hne
    · obtain ⟨rs2, rl2, h1, h2, h4, h5, h6, h7⟩ := hex
      exact ⟨rs2, rl2, h1, h2, h4, h5, h6, h7⟩

end GethState

namespace GethState

theorem pruneStep_const (bloom : Bytes → Bool) (k : Bytes)
    (hdel : shouldDelete bloom k = true) (d : List Bytes) (c : Nat) :
    pruneStep bloom ⟨d, c, some k, some k⟩ k =
      ⟨d ++ [k], c + 1, some k, some k⟩ := by
  simp [pruneStep, hdel, bcmp_self]

theorem foldl_pruneStep_replicate (bloom : Bytes → Bool) (k : Bytes)
    (hdel : shouldDelete bloom k = true) :
    ∀ (n : Nat) (d : List Bytes) (c : Nat),
      List.foldl (pruneStep bloom) ⟨d, c, some k, some k⟩
        (List.replicate n k) =
      ⟨d ++ List.replicate n k, c + n, some k, some k⟩ := by
  intro n
  induction n with
  | zero =>
    intro d c
    simp
  | succ m ih =>
    intro d c
    rw [List.replicate_succ, List.foldl_cons, pruneStep_const bloom k hdel]
    rw [ih (d ++ [k]) (c + 1)]
    have hlist : (d ++ [k]) ++ List.replicate m k =
        d ++ List.replicate (m + 1) k := by
      rw [List.append_assoc]
      rfl
    have hc : c + 1 + m = c + (m + 1) := by omega
    rw [hlist, hc, List.replicate_succ]

/-- C8 counterexample: a sweep deleting 100000 32-byte zero keys and one
33-byte code key (bloom empty) triggers compaction, the largest deleted
key is the code key, but the stored upper compaction endpoint is its
32-byte truncation, strictly below the maximal deleted key — so the
compacted range is not [min deleted key, max deleted key]. -/
theorem C8_counterexample :
    pruneCompact (fun _ => false)
        (List.replicate 100000 (List.replicate 32 0) ++
          [99 :: List.replicate 32 9]) =
      some (some (List.replicate 32 0),
        some (99 :: List.replicate 31 9)) ∧
    (99 :: List.replicate 32 9) ∈
      (pruneRun (fun _ => false)
        (List.replicate 100000 (List.replicate 32 0) ++
          [99 :: List.replicate 32 9])).deleted ∧
    (∀ k, k ∈ (pruneRun (fun _ => false)
        (List.replicate 100000 (List.replicate 32 0) ++
          [99 :: List.replicate 32 9])).deleted →
      bcmp k (99 :: List.replicate 32 9) ≠ .gt) ∧
    bcmp (99 :: List.replicate 31 9) (99 :: List.replicate 32 9) = .lt := by
  have hd32 : shouldDelete (fun _ => false) (List.replicate 32 0) = true := by
    decide
  have hdc : shouldDelete (fun _ => false)
      (99 :: List.replicate 32 9) = true := by decide
  have hcmp : bcmp (List.replicate 32 0) (99 :: List.replicate 32 9) =
      .lt := by decide
  have htake : (99 :: List.replicate 32 9).take HashLength =
      99 :: List.replicate 31 9 := by decide
  have htake0 : (List.replicate 32 0).take HashLength =
      List.replicate 32 0 := by decide
  have hfold : List.foldl (pruneStep (fun _ => false)) ⟨[], 0, none, none⟩
      (List.replicate 100000 (List.replicate 32 0)) =
      ⟨List.replicate 100000 (List.replicate 32 0), 100000,
        some (List.replicate 32 0), some (List.replicate 32 0)⟩ := by
    rw [show (100000 : Nat) = 99999 + 1 from by norm_num,
      List.replicate_succ, List.foldl_cons]
    have hstep1 : pruneStep (fun _ => false) ⟨[], 0, none, none⟩
        (List.replicate 32 0) =
        ⟨[List.replicate 32 0], 1, some (List.replicate 32 0),
          some (List.replicate 32 0)⟩ := by
      simp only [pruneStep, hd32, reduceIte, htake0, List.nil_append,
        Nat.zero_add]
    rw [hstep1, foldl_pruneStep_replicate (fun _ => false)
      (List.replicate 32 0) hd32 99999 [List.replicate 32 0] 1]
    have h2 : 1 + 99999 = 99999 + 1 := by norm_num
    rw [h2, List.replicate_succ]
    rfl
  have hstepc : pruneStep (fun _ => false)
      ⟨List.replicate 100000 (List.replicate 32 0), 100000,
        some (List.replicate 32 0), some (List.replicate 32 0)⟩
      (99 :: List.replicate 32 9) =
      ⟨List.replicate 100000 (List.replicate 32 0) ++
          [99 :: List.replicate 32 9], 100001,
        some (List.replicate 32 0), some (99 :: List.replicate 31 9)⟩ := by
    simp only [pruneStep, hdc, reduceIte, hcmp, htake]
    rw [show (100000 : Nat) + 1 = 100001 from by norm_num]
    rfl
  have hrun : pruneRun (fun _ => false)
      (List.replicate 100000 (List.replicate 32 0) ++
        [99 :: List.replicate 32 9]) =
      ⟨List.replicate 100000 (List.replicate 32 0) ++
          [99 :: List.replicate 32 9], 100001,
        some (List.replicate 32 0), some (99 :: List.replicate 31 9)⟩ := by
    rw [pruneRun, List.foldl_append, hfold, List.foldl_cons, hstepc]
    rw [List.foldl_nil]
  refine ⟨?_, ?_, ?_, by decide⟩
  · simp only [pruneCompact, hrun]
    have hth : rangeCompactionThreshold ≤ 100001 := by
      norm_num [rangeCompactionThreshold]
    rw [if_pos hth]
  · rw [hrun]
    exact List.mem_append.mpr (Or.inr (List.mem_singleton.mpr rfl))
  · rw [hrun]
    intro k hk
    simp only [List.mem_append, List.mem_singleton] at hk
    rcases hk with hk | hk
    · have hk32 := (List.mem_replicate.mp hk).2
      subst hk32
      rw [hcmp]
      simp
    · subst hk
      rw [bcmp_self]
      simp

theorem C8_prune_sweep_witness :
    (pruneRun (fun k => k == List.replicate 32 2)
        [List.replicate 32 1, [7], 99 :: List.replicate 32 2]).deleted =
      [List.replicate 32 1] ∧
    pruneCompact (fun k => k == List.replicate 32 2)
        [List.replicate 32 1, [7], 99 :: List.replicate 32 2] = none := by
  have h := C8_prune_sweep (fun k => k == List.replicate 32 2)
    [List.replicate 32 1, [7], 99 :: List.replicate 32 2]
  refine ⟨?_, ?_⟩
  · rw [h.1]
    decide
  · exact h.2.2.2.2.1 (by rw [h.2.1]; decide)

end GethState

namespace GethState

/-- One account processed by the snapshot generator: its 32-byte account
hash and the storage-slot hashes visited for it, in iteration order. -/
structure AccountEv where
  key : Bytes
  slots : List Bytes

/-- Non-decreasing chain of byte strings starting below `prev`. -/
def MonoFrom (prev : Bytes) : List Bytes → Prop
  | [] => True
  | x :: rest => bcmp prev x ≠ .gt ∧ MonoFrom x rest

/-- Non-decreasing list of byte strings. -/
def Asc : List Bytes → Prop
  | [] => True
  | [_] => True
  | a :: b :: rest => bcmp a b ≠ .gt ∧ Asc (b :: rest)

/-- Strictly ascending account keys. -/
def AccAsc : List AccountEv → Prop
  | [] => True
  | [_] => True
  | e1 :: e2 :: rest => bcmp e1.key e2.key = .lt ∧ AccAsc (e2 :: rest)

/-- The `current` markers handed to `checkAndFlush` while processing one
account that is not the resumption point: the account hash itself
(`marker := account[:]`), then `account ++ slot` for every visited
storage slot. -/
def plainBlock (ev : AccountEv) : List Bytes :=
  ev.key :: ev.slots.map (fun s => ev.key ++ s)

/-- The markers of the first account of a run resuming from `g0`: when
the interrupted marker carries a storage suffix (`len(genMarker) > 32`)
and this account is the marked one, the account-level marker is the old
`genMarker` itself so the marker does not go backwards. -/
def firstBlock (g0 : Bytes) (ev : AccountEv) : List Bytes :=
  if 32 < g0.length ∧ ev.key = g0.take 32 then
    g0 :: ev.slots.map (fun s => ev.key ++ s)
  else plainBlock ev

/-- All markers handed to `checkAndFlush` during one generator run that
resumes from marker `g0` and visits the given accounts in order. -/
def markerSeq (g0 : Bytes) : List AccountEv → List Bytes
  | [] => []
  | ev :: rest => firstBlock g0 ev ++ (rest.map plainBlock).flatten

theorem monoFrom_append (p : Bytes) :
    ∀ (xs ys : List Bytes), MonoFrom p xs →
      MonoFrom (List.getLastD xs p) ys → MonoFrom p (xs ++ ys) := by
  intro xs
  induction xs generalizing p with
  | nil =>
    intro ys _ h2
    exact h2
  | cons x rest ih =>
    intro ys h1 h2
    obtain ⟨ha, hb⟩ := h1
    rw [List.getLastD_cons] at h2
    exact ⟨ha, ih x ys hb h2⟩

theorem mono_map_from (k : Bytes) :
    ∀ (rest : List Bytes) (s : Bytes), Asc (s :: rest) →
      MonoFrom (k ++ s) (rest.map (fun t => k ++ t)) := by
  intro rest
  induction rest with
  | nil =>
    intro s _
    trivial
  | cons r rest2 ih =>
    intro s hasc
    obtain ⟨h1, h2⟩ := hasc
    exact ⟨by rw [bcmp_append_left]; exact h1, ih r h2⟩

theorem mono_block (k : Bytes) (slots : List Bytes) (hasc : Asc slots) :
    MonoFrom k (slots.map (fun s => k ++ s)) := by
  cases slots with
  | nil => trivial
  | cons s rest =>
    exact ⟨bcmp_self_append k s, mono_map_from k rest s hasc⟩

theorem mono_map_from_suffix (k : Bytes) (slots : List Bytes) (d : Bytes)
    (hd : ∀ s, slots.head? = some s → bcmp d s ≠ .gt)
    (hasc : Asc slots) :
    MonoFrom (k ++ d) (slots.map (fun t => k ++ t)) := by
  cases slots with
  | nil => trivial
  | cons s rest =>
    exact ⟨by rw [bcmp_append_left]; exact hd s rfl,
      mono_map_from k rest s hasc⟩

theorem getLastD_map_mem (k : Bytes) :
    ∀ (slots : List Bytes) (d : Bytes),
      List.getLastD (slots.map (fun s => k ++ s)) d = d ∨
      ∃ s, s ∈ slots ∧
        List.getLastD (slots.map (fun s => k ++ s)) d = k ++ s := by
  intro slots
  induction slots with
  | nil =>
    intro d
    left
    rfl
  | cons s rest ih =>
    intro d
    rw [List.map_cons, List.getLastD_cons]
    rcases ih (k ++ s) with h | ⟨s2, hmem, heq⟩
    · right
      exact ⟨s, by simp, h⟩
    · right
      exact ⟨s2, by simp [hmem], heq⟩

theorem mono_blocks :
    ∀ (rest : List AccountEv) (k last : Bytes),
      k.length = 32 →
      (last = k ∨ ∃ s, last = k ++ s) →
      (∀ ev, ev ∈ rest → ev.key.length = 32) →
      (∀ ev, rest.head? = some ev → bcmp k ev.key = .lt) →
      AccAsc rest →
      (∀ ev, ev ∈ rest → Asc ev.slots) →
      MonoFrom last ((rest.map plainBlock).flatten) := by
  intro rest
  induction rest with
  | nil =>
    intro k last _ _ _ _ _ _
    trivial
  | cons ev rest2 ih =>
    intro k last hk hlast hlen hhead hasc hslots
    rw [List.map_cons, List.flatten_cons]
    have hkev : bcmp k ev.key = .lt := hhead ev rfl
    have hevlen : ev.key.length = 32 := hlen ev (by simp)
    have hlink : bcmp last ev.key ≠ .gt := by
      rcases hlast with hlast | ⟨s, hlast⟩
      · subst hlast
        rw [hkev]
        simp
      · subst hlast
        have := bcmp_append_of_lt (by rw [hk, hevlen]) hkev s []
        rw [List.append_nil] at this
        rw [this]
        simp
    refine monoFrom_append last (plainBlock ev)
      ((rest2.map plainBlock).flatten)
      ⟨hlink, mono_block ev.key ev.slots (hslots ev (by simp))⟩ ?_
    have hlast2 : List.getLastD (plainBlock ev) last =
        ev.key ∨ ∃ s, List.getLastD (plainBlock ev) last =
          ev.key ++ s := by
      rw [plainBlock, List.getLastD_cons]
      rcases getLastD_map_mem ev.key ev.slots ev.key with h | ⟨s, _, h⟩
      · left
        exact h
      · right
        exact ⟨s, h⟩
    have hhead2 : ∀ e2, rest2.head? = some e2 →
        bcmp ev.key e2.key = .lt := by
      intro e2 he2
      cases rest2 with
      | nil => cases he2
      | cons e3 rest3 =>
        cases he2
        exact hasc.1
    have hasc2 : AccAsc rest2 := by
      cases rest2 with
      | nil => trivial
      | cons e3 rest3 => exact hasc.2
    exact ih ev.key (List.getLastD (plainBlock ev) last) hevlen
      (by
        rcases hlast2 with h | ⟨s, h⟩
        · left
          exact h
        · right
          exact ⟨s, h⟩)
      (fun e2 he2 => hlen e2 (by simp [he2]))
      hhead2 hasc2 (fun e2 he2 => hslots e2 (by simp [he2]))

end GethState

namespace GethState

theorem monoFrom_le_mem {p : Bytes} :
    ∀ {xs : List Bytes}, MonoFrom p xs →
      ∀ q, q ∈ xs → bcmp p q ≠ .gt := by
  intro xs
  induction xs generalizing p with
  | nil =>
    intro _ q hq
    cases hq
  | cons x rest ih =>
    intro h q hq
    obtain ⟨h1, h2⟩ := h
    rcases List.mem_cons.mp hq with hq | hq
    · subst hq
      exact h1
    · exact bcmp_trans_le h1 (ih h2 q hq)

theorem monoFrom_pairwise {p : Bytes} :
    ∀ {xs : List Bytes}, MonoFrom p xs →
      List.Pairwise (fun a b => bcmp a b ≠ .gt) (p :: xs) := by
  intro xs
  induction xs generalizing p with
  | nil =>
    intro _
    simp
  | cons x rest ih =>
    intro h
    obtain ⟨h1, h2⟩ := h
    rw [List.pairwise_cons]
    exact ⟨monoFrom_le_mem ⟨h1, h2⟩, ih h2⟩

/-- C9: during a generator run resuming from marker `g0` — account keys
32 bytes long and strictly ascending from the resumption point, slot
keys non-decreasing per account, and the resumed account's slots at or
above the interrupted marker's storage suffix — the sequence of markers
handed to `checkAndFlush` (each persisted marker is one of these) never
decreases below `g0` or any earlier marker: the whole sequence,
`g0` included, is pairwise non-decreasing, and therefore so is every
subsequence of persisted markers. -/
theorem C9_marker_monotone (g0 : Bytes) (evs : List AccountEv)
    (hlen : ∀ ev, ev ∈ evs → ev.key.length = 32)
    (hasc : AccAsc evs)
    (hslots : ∀ ev, ev ∈ evs → Asc ev.slots)
    (hfirst : ∀ ev, evs.head? = some ev → bcmp (g0.take 32) ev.key ≠ .gt)
    (hresume : ∀ ev, evs.head? = some ev → 32 < g0.length →
      ev.key = g0.take 32 →
      ∀ s, ev.slots.head? = some s → bcmp (g0.drop 32) s ≠ .gt) :
    MonoFrom g0 (markerSeq g0 evs) ∧
    List.Pairwise (fun a b => bcmp a b ≠ .gt) (g0 :: markerSeq g0 evs) ∧
    (∀ ps : List Bytes, ps.Sublist (g0 :: markerSeq g0 evs) →
      List.Pairwise (fun a b => bcmp a b ≠ .gt) ps) := by
  have hmono : MonoFrom g0 (markerSeq g0 evs) := by
    cases evs with
    | nil => trivial
    | cons ev rest =>
      rw [markerSeq]
      have hevlen : ev.key.length = 32 := hlen ev (by simp)
      have hevslots : Asc ev.slots := hslots ev (by simp)
      have hf := hfirst ev rfl
      have hhead2 : ∀ e2, rest.head? = some e2 →
          bcmp ev.key e2.key = .lt := by
        intro e2 he2
        cases rest with
        | nil => cases he2
        | cons e3 rest3 =>
          cases he2
          exact hasc.1
      have hasc2 : AccAsc rest := by
        cases rest with
        | nil => trivial
        | cons e3 rest3 => exact hasc.2
      by_cases hc : 32 < g0.length ∧ ev.key = g0.take 32
      · have hg0 : g0 = ev.key ++ g0.drop 32 := by
          rw [hc.2]
          exact (List.take_append_drop 32 g0).symm
        have hfb : firstBlock g0 ev =
            g0 :: ev.slots.map (fun s => ev.key ++ s) := by
          rw [firstBlock, if_pos hc]
        rw [hfb]
        have hmono1 : MonoFrom g0
            (ev.slots.map (fun s => ev.key ++ s)) := by
          rw [show (g0 : Bytes) = ev.key ++ g0.drop 32 from hg0]
          exact mono_map_from_suffix ev.key ev.slots (g0.drop 32)
            (fun s hs => hresume ev rfl hc.1 hc.2 s hs) hevslots
        refine monoFrom_append g0 _ _ ⟨by rw [bcmp_self]; simp, hmono1⟩ ?_
        have hlast : List.getLastD
            (g0 :: ev.slots.map (fun s => ev.key ++ s)) g0 = ev.key ∨
            ∃ s, List.getLastD
              (g0 :: ev.slots.map (fun s => ev.key ++ s)) g0 =
                ev.key ++ s := by
          rw [List.getLastD_cons]
          rcases getLastD_map_mem ev.key ev.slots g0 with h | ⟨s, _, h⟩
          · right
            exact ⟨g0.drop 32, by rw [h, ← hg0]⟩
          · right
            exact ⟨s, h⟩
        exact mono_blocks rest ev.key _ hevlen hlast
          (fun e2 he2 => hlen e2 (by simp [he2])) hhead2 hasc2
          (fun e2 he2 => hslots e2 (by simp [he2]))
      · have hfb : firstBlock g0 ev = plainBlock ev := by
          rw [firstBlock, if_neg hc]
        rw [hfb]
        have hlink : bcmp g0 ev.key ≠ .gt := by
          by_cases hlen0 : g0.length ≤ 32
          · have : g0.take 32 = g0 := List.take_of_length_le hlen0
            rw [← this]
            exact hf
          · push_neg at hlen0
            have hne : ev.key ≠ g0.take 32 := by
              intro heq
              exact hc ⟨hlen0, heq⟩
            have hlt : bcmp (g0.take 32) ev.key = .lt := by
              rcases h : bcmp (g0.take 32) ev.key with _ | _ | _
              · rfl
              · exact absurd (bcmp_eq_iff.mp h).symm hne
              · exact absurd h hf
            have hg0 : g0 = g0.take 32 ++ g0.drop 32 :=
              (List.take_append_drop 32 g0).symm
            have htlen : (g0.take 32).length = ev.key.length := by
              rw [List.length_take, hevlen]
              omega
            have := bcmp_append_of_lt htlen hlt (g0.drop 32) []
            rw [List.append_nil] at this
            rw [show (g0 : Bytes) = g0.take 32 ++ g0.drop 32 from hg0,
              this]
            simp
        refine monoFrom_append g0 _ _
          ⟨hlink, mono_block ev.key ev.slots hevslots⟩ ?_
        have hlast : List.getLastD (plainBlock ev) g0 = ev.key ∨
            ∃ s, List.getLastD (plainBlock ev) g0 = ev.key ++ s := by
          rw [plainBlock, List.getLastD_cons]
          rcases getLastD_map_mem ev.key ev.slots ev.key with h | ⟨s, _, h⟩
          · left
            exact h
          · right
            exact ⟨s, h⟩
        exact mono_blocks rest ev.key _ hevlen hlast
          (fun e2 he2 => hlen e2 (by simp [he2])) hhead2 hasc2
          (fun e2 he2 => hslots e2 (by simp [he2]))
  refine ⟨hmono, monoFrom_pairwise hmono, ?_⟩
  intro ps hps
  exact (monoFrom_pairwise hmono).sublist hps

theorem C9_marker_monotone_witness :
    MonoFrom [] (markerSeq []
      [⟨List.replicate 32 1, [[3], [4]]⟩, ⟨List.replicate 32 2, []⟩]) ∧
    List.Pairwise (fun a b => bcmp a b ≠ .gt)
      (([] : Bytes) :: markerSeq []
        [⟨List.replicate 32 1, [[3], [4]]⟩, ⟨List.replicate 32 2, []⟩]) ∧
    (∀ ps : List Bytes, ps.Sublist (([] : Bytes) :: markerSeq []
        [⟨List.replicate 32 1, [[3], [4]]⟩, ⟨List.replicate 32 2, []⟩]) →
      List.Pairwise (fun a b => bcmp a b ≠ .gt) ps) :=
  C9_marker_monotone []
    [⟨List.replicate 32 1, [[3], [4]]⟩, ⟨List.replicate 32 2, []⟩]
    (by
      intro ev hev
      simp only [List.mem_cons, List.not_mem_nil, or_false] at hev
      rcases hev with h | h <;> subst h <;> decide)
    (show bcmp (List.replicate 32 1) (List.replicate 32 2) = .lt ∧
        AccAsc [⟨List.replicate 32 2, []⟩] from ⟨by decide, trivial⟩)
    (by
      intro ev hev
      simp only [List.mem_cons, List.not_mem_nil, or_false] at hev
      rcases hev with h | h <;> subst h
      · exact (show Asc [[3], [4]] from ⟨by decide, trivial⟩)
      · trivial)
    (by intro ev hev; cases hev; decide)
    (by intro ev hev hg; simp at hg)

end GethState
